import Mathlib

/-!
Verification of the command-orchestration core of `twistedActor`
(`python/twistedActor/deviceSet.py`): the slot registry (`DeviceSet`) and
the dispatch engine (`RunCmdDict`), shallowly embedded in Lean.

Asynchronous device completion is modelled as an explicit event trace acting
on the dispatch-run state; Python dict/set iteration order is modelled by
the CPython 2.7 open-addressing hash table over string keys, so that the
user-visible ordering of failure messages is faithful to the interpreter
that runs this (Python 2) code.
-/

namespace TwistedActor

/-- Command-handle states. Modelled from the spec (§6, external Command
Handle primitive; `twistedActor.command` is not under `src/`):
`state ∈ {Ready, Running, Cancelled, Failed, Done}`. -/
inductive CmdState where
  | ready
  | running
  | cancelled
  | failed
  | done
deriving DecidableEq

/-- Modelled from the spec: a Command Handle is done in any terminal state
(Done, Failed, Cancelled). -/
def CmdState.isDone : CmdState → Bool
  | .cancelled => true
  | .failed => true
  | .done => true
  | _ => false

/-- Modelled from the spec: the failure flag of a Command Handle
(Cancelled and Failed count as failed). -/
def CmdState.didFail : CmdState → Bool
  | .cancelled => true
  | .failed => true
  | _ => false

/-- Modelled from the spec: the caller-visible state of a user command
(Governing Command): current state plus the text message installed by the
last `setState`. -/
structure UserCmdState where
  state : CmdState
  textMsg : String
deriving DecidableEq

/-- Modelled from the spec: `twistedActor.device.expandUserCmd` (not under
`src/`): return the given user command, or a fresh one when absent; a user
command that is already finished is rejected with a `RuntimeError`. -/
def expandUserCmd (u : Option UserCmdState) : Except String UserCmdState :=
  match u with
  | none => .ok ⟨.ready, ""⟩
  | some uc =>
    if uc.state.isDone then .error "userCmd is already done" else .ok uc

/-! ## CPython 2.7 string hashing and small hash tables

`deviceSet.py` stores `failSlotSet` in a `set` and `devCmdDict` in a plain
`dict`; both are iterated (`", ".join(...)` over the set, `iteritems` over
the dict), so their CPython iteration order is user-visible.  We embed the
CPython 2.7 string hash and the open-addressing table (`Objects/setobject.c`
and `Objects/dictobject.c`: probe `j = 5*j + 1 + perturb; perturb >>= 5`,
initial table size 8, growth by 4x once `fill*3 >= size*2`, iteration in
ascending table-index order).  The probe loop carries fuel; on the
(unreachable in CPython) fuel exhaustion we fall back to the first free
slot, which keeps the function total without changing any reachable
behavior. -/

def U64 : Nat := 2 ^ 64

/-- CPython 2.7 64-bit string hash: `x = s[0] << 7; for c in s: x =
(1000003*x) ^ c; x ^= len(s); if x == -1: x = -2` with C `long` wraparound
(all arithmetic mod `2^64`). -/
def py2hash (s : String) : Nat :=
  match s.data with
  | [] => 0
  | c :: _ =>
    let x0 := (c.toNat <<< 7) % U64
    let x1 := s.data.foldl (fun x ch => ((1000003 * x) % U64) ^^^ ch.toNat) x0
    let x2 := x1 ^^^ s.length
    if x2 = U64 - 1 then U64 - 2 else x2

/-- Probe for `key` starting at index `j`: stop at an empty slot or at a
slot already holding `key`; `none` when the fuel runs out. -/
def probeFind (t : List (Option String)) (key : String) :
    Nat → Nat → Nat → Option Nat
  | 0, _, _ => none
  | fuel + 1, j, perturb =>
    match t[j]? with
    | none => none
    | some none => some j
    | some (some k) =>
      if k = key then some j
      else probeFind t key fuel ((5 * j + 1 + perturb) % t.length) (perturb / 32)

/-- The keys held by a table, in ascending table-index order: CPython's
iteration order for both `set` and `dict`. -/
def tableMembers (t : List (Option String)) : List String := t.filterMap id

/-- Number of occupied table slots. -/
def nOcc (t : List (Option String)) : Nat := (tableMembers t).length

/-- Index of the first empty slot (used only by the fuel-exhaustion
fallback of `insertKey`). -/
def firstNoneIdx : List (Option String) → Option Nat
  | [] => none
  | none :: _ => some 0
  | some _ :: rest => (firstNoneIdx rest).map (· + 1)

/-- Insert a key along its CPython probe sequence (no-op when present).
On fuel exhaustion — unreachable for any table CPython can build — fall
back to the first free slot. -/
def insertKey (t : List (Option String)) (key : String) : List (Option String) :=
  match probeFind t key (t.length + 16) (py2hash key % t.length) (py2hash key) with
  | some j =>
    match t[j]? with
    | some none => t.set j (some key)
    | _ => t
  | none =>
    if key ∈ tableMembers t then t
    else
      match firstNoneIdx t with
      | some j => t.set j (some key)
      | none => t

/-- CPython's new table size: the smallest power of two that is at least 8
and exceeds `minused`. -/
def computeNewSize (minused : Nat) : Nat := max 8 (2 ^ (Nat.log2 minused + 1))

/-- CPython table resize: reinsert the members, in table order, into a
fresh table of the grown size (`minused = 4*used`, or `2*used` past 50000
entries). -/
def pyResize (t : List (Option String)) : List (Option String) :=
  let used := nOcc t
  let minused := (if used > 50000 then 2 else 4) * used
  (tableMembers t).foldl insertKey (List.replicate (computeNewSize minused) none)

/-- Insert plus CPython's post-insert growth check (`fill*3 >= size*2`). -/
def insertGrow (t : List (Option String)) (key : String) : List (Option String) :=
  let t2 := insertKey t key
  if 3 * nOcc t2 ≥ 2 * t2.length then pyResize t2 else t2

/-- The iteration order of a CPython 2.7 `set` (or `dict` key view) built
by inserting the given strings in the given order, starting from the
standard minimum table size 8. -/
def pySetOrder (l : List String) : List String :=
  tableMembers (l.foldl insertGrow (List.replicate 8 none))

/-- `", ".join(...)`. -/
def commaJoin (l : List String) : String := String.intercalate ", " l

/-! ## Association lists standing for Python dicts

`aset` overwrites in place (preserving position, as both `dict` and
`OrderedDict` assignment do) and appends new keys at the end. -/

def alookup {α : Type} (l : List (String × α)) (k : String) : Option α :=
  match l with
  | [] => none
  | (k2, v) :: rest => if k2 = k then some v else alookup rest k

def aset {α : Type} (l : List (String × α)) (k : String) (v : α) :
    List (String × α) :=
  match l with
  | [] => [(k, v)]
  | (k2, v2) :: rest => if k2 = k then (k2, v) :: rest else (k2, v2) :: aset rest k v

def keysOf {α : Type} (l : List (String × α)) : List String := l.map Prod.fst

/-! ## The slot registry: `DeviceSet` -/

/-- A device as the registry sees it (external collaborator, spec §6): the
registry itself only reads `.name` and issues connect/disconnect/start
operations, which we record as boundary events. -/
structure Device where
  name : String
deriving DecidableEq

/-- `DeviceSet` data: `_slotDevDict` (ordered slot → optional device) and
`_devNameSlotDict` (device name → slot).  The `_slotIndexDict` and the
actor reference are omitted: no claim touches `getIndex`/`slotFromIndex`,
and `actor.writeToUsers` output is recorded in each operation's result. -/
structure DeviceSet where
  slotDevDict : List (String × Option Device)
  devNameSlotDict : List (String × String)
deriving DecidableEq

def DeviceSet.lookupSlot (ds : DeviceSet) (slot : String) : Option (Option Device) :=
  alookup ds.slotDevDict slot

/-- `self[slot]` collapsed with the missing-key case (`none` for an unknown
slot as well as for an empty one; callers that care distinguish via
`lookupSlot`). -/
def DeviceSet.devAt (ds : DeviceSet) (slot : String) : Option Device :=
  (ds.lookupSlot slot).join

/-- `DeviceSet.filledSlotList`: names of slots holding a device, in slot
order. -/
def DeviceSet.filledSlotList (ds : DeviceSet) : List String :=
  ds.slotDevDict.filterMap (fun p => if p.2.isSome then some p.1 else none)

/-- `DeviceSet.checkSlotList`: the list comprehension over `self[slot]`
raises `KeyError` at the first unknown slot, producing the "unknown" error;
otherwise a non-empty list of empty slots produces the "empty" error. -/
def DeviceSet.checkSlotList (ds : DeviceSet) (slotList : List String) :
    Except String Unit :=
  if slotList.all (fun s => (ds.lookupSlot s).isSome) then
    let emptySlotList := slotList.filter (fun s => ds.devAt s = none)
    if emptySlotList.isEmpty then .ok ()
    else .error ("One or more slots is empty: " ++ commaJoin emptySlotList)
  else
    .error ("One or more slots is unknown: " ++
      commaJoin (slotList.filter (fun s => (ds.lookupSlot s).isNone)))

/-- `DeviceSet.expandSlotList`: `None` means all filled slots; an explicit
list is validated by `checkSlotList`. -/
def DeviceSet.expandSlotList (ds : DeviceSet) (slotList : Option (List String)) :
    Except String (List String) :=
  match slotList with
  | none => .ok ds.filledSlotList
  | some l => do
    ds.checkSlotList l
    .ok l

/-- Modelled from the spec: `twistedActor.linkCommands.LinkCommands` (not
under `src/`) resolves the governing command once all children are
terminal.  At the moment `_connectOrDisconnect` returns, its children are
freshly issued; resolution is immediate only when there are no pending
children. -/
def linkCommandsNow (u : UserCmdState) (children : List CmdState) : UserCmdState :=
  if children.all (fun c => c.isDone) then
    if children.any (fun c => c.didFail) then ⟨.failed, "linked command failed"⟩
    else ⟨.done, ""⟩
  else u

/-- Result of `_connectOrDisconnect`: the returned user command and the
boundary log of device operations issued, as
(device name, doConnect, timeLim) triples. -/
structure ConnectResult where
  userCmd : UserCmdState
  issued : List (String × Bool × Nat)
deriving DecidableEq

/-- `DeviceSet._connectOrDisconnect`: expand the user command and the slot
list, then issue `dev.connect`/`dev.disconnect` for each listed slot that
holds a device (`if dev:`), and link the resulting commands into the user
command. -/
def DeviceSet.connectOrDisconnect (ds : DeviceSet) (doConnect : Bool)
    (slotList : Option (List String)) (userCmd : Option UserCmdState)
    (timeLim : Nat) : Except String ConnectResult := do
  let u ← expandUserCmd userCmd
  let slots ← ds.expandSlotList slotList
  let issued := slots.filterMap
    (fun s => (ds.devAt s).map (fun d => (d.name, doConnect, timeLim)))
  .ok ⟨linkCommandsNow u (issued.map (fun _ => CmdState.running)), issued⟩

/-- `DeviceSet.connect`. -/
def DeviceSet.connect (ds : DeviceSet) (slotList : Option (List String))
    (userCmd : Option UserCmdState) (timeLim : Nat) : Except String ConnectResult :=
  ds.connectOrDisconnect true slotList userCmd timeLim

/-- `DeviceSet.disconnect`. -/
def DeviceSet.disconnect (ds : DeviceSet) (slotList : Option (List String))
    (userCmd : Option UserCmdState) (timeLim : Nat) : Except String ConnectResult :=
  ds.connectOrDisconnect false slotList userCmd timeLim

/-- Result of `replaceDev`: the updated registry, the returned user
command, and the `actor.writeToUsers` log as (msgCode, text) pairs. -/
structure ReplaceResult where
  devSet : DeviceSet
  userCmd : UserCmdState
  writes : List (String × String)
deriving DecidableEq

/-- `DeviceSet.replaceDev`.  Removal (`dev is None`) clears the slot (the
old device's callback removal is the no-op `_removeDevCallbacks` hook and
`oldDev.init()` acts on the external device only) and resolves the user
command to Done.  Installation starts `dev.connect` with `initCallback`;
the callback — whose body we inline at the connect-completion point,
parameterised by the connect outcome `connectDidFail` and the failed
command's message `connectMsg` — reports a failure with a "w" write, then
unconditionally installs the device into `_slotDevDict` and
`_devNameSlotDict` and resolves the user command to Done. -/
def DeviceSet.replaceDev (ds : DeviceSet) (slot : String) (dev : Option Device)
    (connectDidFail : Bool) (connectMsg : String) (userCmd : Option UserCmdState) :
    Except String ReplaceResult :=
  if (alookup ds.slotDevDict slot).isNone then .error ("Invalid slot " ++ slot)
  else do
    let u ← expandUserCmd userCmd
    match dev with
    | none =>
      .ok ⟨{ ds with slotDevDict := aset ds.slotDevDict slot none },
        ⟨.done, ""⟩, []⟩
    | some d =>
      let writes := if connectDidFail then
          [("w", "Failed to initialize new " ++ slot ++ " device " ++ d.name ++
            ": " ++ connectMsg)]
        else []
      let ds2 : DeviceSet :=
        { slotDevDict := aset ds.slotDevDict slot (some d),
          devNameSlotDict := aset ds.devNameSlotDict d.name slot }
      let u2 := if u.state.isDone then u else (⟨.done, ""⟩ : UserCmdState)
      .ok ⟨ds2, u2, writes⟩

/-- One entry of the reverse-index construction (`dict((dev.name, slot)
for (slot, dev) in ... if dev)`): present devices contribute their name. -/
def revStep (m : List (String × String)) (p : String × Option Device) :
    List (String × String) :=
  match p.2 with
  | some dv => aset m dv.name p.1
  | none => m

/-- `DeviceSet.__init__`: reject mismatched lengths, build the ordered
slot→device dict (duplicate slot names collapse, which the length check
then rejects) and the name→slot reverse index from the present devices. -/
def DeviceSet.construct (slotList : List String) (devList : List (Option Device)) :
    Except String DeviceSet :=
  if slotList.length ≠ devList.length then
    .error "devList and slotList are not the same length"
  else
    let slotDev := (slotList.zip devList).foldl (fun d p => aset d p.1 p.2) []
    let devNameSlot := slotDev.foldl revStep []
    if slotDev.length < slotList.length then
      .error "Names in slotList are not unique"
    else .ok ⟨slotDev, devNameSlot⟩

/-! ## The dispatch engine: `RunCmdDict` -/

def DefaultTimeLim : Nat := 5

/-- A command-dict value: one command string or a sequence of them
(`isSequence` distinguishes; a single string goes to `dev.startCmd`, a
sequence to `dev.startCmdList`). -/
inductive CmdSpec where
  | single (cmdStr : String)
  | seq (cmdList : List String)
deriving DecidableEq

/-- The command text carried by the handle the device returns (read back as
`devCmd.cmdStr` in the callback-exception report).  For a single command
the device's handle carries that string; for a sequence the text comes from
the external device (`twistedActor.device`, not under `src/`) and we record
the comma-joined list. -/
def CmdSpec.handleStr : CmdSpec → String
  | .single s => s
  | .seq l => String.intercalate "," l

/-- A single quote character (used by Python `%r` on strings). -/
def sqChar : Char := Char.ofNat 39

/-- Python `repr` of a short ASCII string: single-quoted, or double-quoted
when the text itself contains a single quote (escape sequences for exotic
characters are out of scope for slot/command names). -/
def pyReprStr (s : String) : String :=
  if s.contains sqChar then "\"" ++ s ++ "\""
  else String.singleton sqChar ++ s ++ String.singleton sqChar

/-- One tracked device command: its handle state, its command text, and
whether it is a chained follow-up (registered with the plain
`newDevCmdCallback` rather than `devCmdCallback`). -/
structure TrackedCmd where
  state : CmdState
  cmdStr : String
  chained : Bool
deriving DecidableEq

/-- The state of one dispatch run (`RunCmdDict` instance): the governing
user command, `devCmdDict` (slot → current handle, in insertion order; the
Python `dict` iteration order is recovered by `pySetOrder` over its keys),
`failSlotSet` (contents in insertion order; the Python `set` iteration
order is `pySetOrder` of this list), the `actor.writeToUsers` log, and the
boundary log of device commands issued as (slot, command, timeLim). -/
structure RunState where
  userCmd : UserCmdState
  devCmdDict : List (String × TrackedCmd)
  failSlotSet : List String
  writes : List (String × String)
  issued : List (String × CmdSpec × Nat)
deriving DecidableEq

/-- `set.add`: append when absent (insertion order is kept so that the
hash-table order of the final message can be computed faithfully). -/
def setAdd (l : List String) (s : String) : List String :=
  if s ∈ l then l else l ++ [s]

/-- The body of `checkDone`'s loop over `devCmdDict.iteritems()`: walk the
keys in the given order, returning early (`False`) at the first unfinished
handle, and adding each failed handle's slot to `failSlotSet` along the
way. -/
def scanLoop (st : RunState) : List String → RunState × Bool
  | [] => (st, true)
  | s :: rest =>
    match alookup st.devCmdDict s with
    | none => scanLoop st rest
    | some tc =>
      if tc.state.isDone then
        scanLoop
          (if tc.state.didFail then
            { st with failSlotSet := setAdd st.failSlotSet s } else st) rest
      else (st, false)

/-- The failure message: `"Command failed for %s"` with the comma-join of
`failSlotSet` in its CPython iteration order. -/
def failMsg (failSlotSet : List String) : String :=
  "Command failed for " ++ commaJoin (pySetOrder failSlotSet)

/-- `RunCmdDict.checkDone`: scan all tracked handles (in the `dict`
iteration order of `devCmdDict`); when every one is finished and the user
command is not already done, resolve it to Failed (naming `failSlotSet`) or
Done. -/
def checkDone (st : RunState) : RunState :=
  match scanLoop st (pySetOrder (keysOf st.devCmdDict)) with
  | (st2, false) => st2
  | (st2, true) =>
    if st2.userCmd.state.isDone then st2
    else if st2.failSlotSet.isEmpty then { st2 with userCmd := ⟨.done, ""⟩ }
    else { st2 with userCmd := ⟨.failed, failMsg st2.failSlotSet⟩ }

/-- What the caller-supplied `callFunc` does when invoked for one
completion: return `None`, return a new device command (chaining), or
raise. -/
inductive CbAction where
  | retNone
  | chain
  | raiseExc
deriving DecidableEq

/-- A completion event delivered by the event loop: the slot whose current
handle reached the terminal state `result`, plus the behavior of
`callFunc` if it gets invoked for this completion. -/
structure Ev where
  slot : String
  result : CmdState
  cb : CbAction
deriving DecidableEq

/-- `devCmdCallback` line `if devCmd.didFail: self.failSlotSet.add(slot)`. -/
def recordFail (st : RunState) (e : Ev) : RunState :=
  if e.result.didFail then { st with failSlotSet := setAdd st.failSlotSet e.slot }
  else st

/-- `devCmdCallback` line `self.devCmdDict[slot] = devCmd`: the completed
handle (original text `tc.cmdStr`, terminal state `e.result`) is stored. -/
def storeResult (st : RunState) (e : Ev) (tc : TrackedCmd) : RunState :=
  { recordFail st e with
    devCmdDict := aset (recordFail st e).devCmdDict e.slot
      { tc with state := e.result } }

/-- `devCmdCallback` lines 378-396: invoke `callFunc` when present.  A
returned new command replaces the stored handle for the slot (running,
`chained` flag set: its callback is the plain `newDevCmdCallback`); an
exception adds the slot to `failSlotSet` and reports via
`writeToUsers("f", "%s command %r failed" % (slot, devCmd.cmdStr))`. -/
def applyCallFunc (hasCallFunc : Bool) (e : Ev) (tc : TrackedCmd)
    (st2 : RunState) : RunState :=
  if hasCallFunc then
    match e.cb with
    | .retNone => st2
    | .chain =>
      { st2 with devCmdDict := aset st2.devCmdDict e.slot ⟨.running, "", true⟩ }
    | .raiseExc =>
      { st2 with
        failSlotSet := setAdd st2.failSlotSet e.slot,
        writes := st2.writes ++
          [("f", e.slot ++ " command " ++ pyReprStr tc.cmdStr ++ " failed")] }
  else st2

/-- One completion callback firing, from
`RunCmdDict.__init__.devCmdCallback` / `newDevCmdCallback`.  A chained
handle's completion runs the plain `newDevCmdCallback` (store, re-check); an
original handle's completion records a failure, stores the handle, invokes
`callFunc` when present, and re-checks completion. -/
def step (hasCallFunc : Bool) (st : RunState) (e : Ev) : RunState :=
  match alookup st.devCmdDict e.slot with
  | none => st
  | some tc =>
    if tc.chained then
      checkDone { st with devCmdDict := aset st.devCmdDict e.slot { tc with state := e.result } }
    else
      checkDone (applyCallFunc hasCallFunc e tc (storeResult st e tc))

/-- One loop iteration of `RunCmdDict.__init__`: issue the device command
for one `cmdDict` entry (`dev.startCmd`/`dev.startCmdList` with the given
`timeLim`; the returned handle starts out running, per the spec's
cooperative single-thread model §5), store it in `devCmdDict`, and register
`devCmdCallback` on it. -/
def issueOne (timeLim : Nat) (st : RunState) (p : String × CmdSpec) : RunState :=
  { st with
    devCmdDict := aset st.devCmdDict p.1 ⟨.running, p.2.handleStr, false⟩,
    issued := st.issued ++ [(p.1, p.2, timeLim)] }

/-- The issue loop of `RunCmdDict.__init__` over the whole command dict. -/
def issueCmds (cmdDict : List (String × CmdSpec)) (timeLim : Nat)
    (u : UserCmdState) : RunState :=
  cmdDict.foldl (issueOne timeLim) ⟨u, [], [], [], []⟩

/-- `RunCmdDict.__init__`: validate the slots of `cmdDict` first (before
the user command is expanded and before anything is issued), then issue one
device command per entry and run the initial `checkDone`. -/
def runCmdDict (ds : DeviceSet) (cmdDict : List (String × CmdSpec))
    (hasCallFunc : Bool) (userCmd : Option UserCmdState) (timeLim : Nat) :
    Except String RunState := do
  ds.checkSlotList (keysOf cmdDict)
  let u ← expandUserCmd userCmd
  .ok (checkDone (issueCmds cmdDict timeLim u))

/-- `DeviceSet.startCmdDict` hands the work to `RunCmdDict`. -/
def DeviceSet.startCmdDict (ds : DeviceSet) (cmdDict : List (String × CmdSpec))
    (hasCallFunc : Bool) (userCmd : Option UserCmdState) (timeLim : Nat) :
    Except String RunState :=
  runCmdDict ds cmdDict hasCallFunc userCmd timeLim

/-- `DeviceSet.startCmd`: broadcast one command (or sequence) to the given
slots (all filled slots when `slotList is None`).  NOTE (faithful to the
source): the delegation `self.startCmdDict(cmdDict=cmdDict,
callFunc=callFunc, userCmd=userCmd)` does not pass `timeLim` on, so the
device commands are started with `DefaultTimeLim` no matter what `timeLim`
the caller supplied here. -/
def DeviceSet.startCmd (ds : DeviceSet) (cmdStrOrList : CmdSpec)
    (slotList : Option (List String)) (hasCallFunc : Bool)
    (userCmd : Option UserCmdState) (timeLim : Nat) : Except String RunState :=
  let slots := match slotList with
    | none => ds.filledSlotList
    | some l => l
  let cmdDict := slots.map (fun s => (s, cmdStrOrList))
  ds.startCmdDict cmdDict hasCallFunc userCmd DefaultTimeLim

/-- Deliver a list of completion events to a run. -/
def runEvents (hasCallFunc : Bool) (st : RunState) (events : List Ev) : RunState :=
  events.foldl (step hasCallFunc) st

/-- An event is deliverable when the slot's current handle is still running
(handles fire their completion callback exactly once, on reaching a
terminal state). -/
def validEv (st : RunState) (e : Ev) : Bool :=
  match alookup st.devCmdDict e.slot with
  | none => false
  | some tc => tc.state = CmdState.running && e.result.isDone

/-- A deliverable event trace. -/
def validTrace (hasCallFunc : Bool) (st : RunState) : List Ev → Bool
  | [] => true
  | e :: es => validEv st e && validTrace hasCallFunc (step hasCallFunc st e) es

/-- All tracked handles are terminal. -/
def allDone (st : RunState) : Bool :=
  st.devCmdDict.all (fun p => p.2.state.isDone)

/-! ## Hash-table lemmas: the CPython iteration order lists exactly the
inserted keys -/

theorem tableMembers_nil : tableMembers [] = [] := rfl

theorem tableMembers_cons_none (rest : List (Option String)) :
    tableMembers (none :: rest) = tableMembers rest := rfl

theorem tableMembers_cons_some (a : String) (rest : List (Option String)) :
    tableMembers (some a :: rest) = a :: tableMembers rest := rfl

theorem tableMembers_replicate (n : Nat) :
    tableMembers (List.replicate n none) = [] := by
  induction n with
  | zero => rfl
  | succ m ih => rw [List.replicate_succ, tableMembers_cons_none, ih]

theorem set_cons_zero (o v : Option String) (rest : List (Option String)) :
    (o :: rest).set 0 v = v :: rest := rfl

theorem set_cons_succ (o v : Option String) (rest : List (Option String)) (m : Nat) :
    (o :: rest).set (m + 1) v = o :: rest.set m v := rfl

theorem mem_tableMembers_set {t : List (Option String)} {j : Nat} {k : String}
    (h : t[j]? = some none) : k ∈ tableMembers (t.set j (some k)) := by
  induction t generalizing j with
  | nil => simp at h
  | cons o rest ih =>
    cases j with
    | zero =>
      rw [set_cons_zero, tableMembers_cons_some]
      exact List.mem_cons_self _ _
    | succ m =>
      rw [List.getElem?_cons_succ] at h
      rw [set_cons_succ]
      cases o with
      | none => rw [tableMembers_cons_none]; exact ih h
      | some a => rw [tableMembers_cons_some]; exact List.mem_cons_of_mem _ (ih h)

theorem mem_tableMembers_set_of_mem {t : List (Option String)} {j : Nat}
    {k k2 : String} (h : t[j]? = some none)
    (h2 : k2 ∈ tableMembers t) : k2 ∈ tableMembers (t.set j (some k)) := by
  induction t generalizing j with
  | nil => simp at h
  | cons o rest ih =>
    cases j with
    | zero =>
      rw [List.getElem?_cons_zero] at h
      injection h with h
      subst h
      rw [set_cons_zero, tableMembers_cons_some]
      rw [tableMembers_cons_none] at h2
      exact List.mem_cons_of_mem _ h2
    | succ m =>
      rw [List.getElem?_cons_succ] at h
      rw [set_cons_succ]
      cases o with
      | none =>
        rw [tableMembers_cons_none] at h2 ⊢
        exact ih h h2
      | some a =>
        rw [tableMembers_cons_some] at h2 ⊢
        rcases List.mem_cons.mp h2 with h3 | h3
        · exact h3 ▸ List.mem_cons_self _ _
        · exact List.mem_cons_of_mem _ (ih h h3)

theorem tableMembers_set_subset {t : List (Option String)} {j : Nat}
    {k k2 : String} (h : k2 ∈ tableMembers (t.set j (some k))) :
    k2 = k ∨ k2 ∈ tableMembers t := by
  induction t generalizing j with
  | nil => simp [List.set, tableMembers_nil] at h
  | cons o rest ih =>
    cases j with
    | zero =>
      rw [set_cons_zero, tableMembers_cons_some] at h
      rcases List.mem_cons.mp h with h3 | h3
      · exact Or.inl h3
      · cases o with
        | none => exact Or.inr (by rw [tableMembers_cons_none]; exact h3)
        | some a =>
          exact Or.inr (by rw [tableMembers_cons_some]; exact List.mem_cons_of_mem _ h3)
    | succ m =>
      rw [set_cons_succ] at h
      cases o with
      | none =>
        rw [tableMembers_cons_none] at h ⊢
        exact ih h
      | some a =>
        rw [tableMembers_cons_some] at h ⊢
        rcases List.mem_cons.mp h with h3 | h3
        · exact Or.inr (h3 ▸ List.mem_cons_self _ _)
        · rcases ih h3 with h4 | h4
          · exact Or.inl h4
          · exact Or.inr (List.mem_cons_of_mem _ h4)

theorem nOcc_set_none {t : List (Option String)} {j : Nat} {k : String}
    (h : t[j]? = some none) : nOcc (t.set j (some k)) = nOcc t + 1 := by
  induction t generalizing j with
  | nil => simp at h
  | cons o rest ih =>
    cases j with
    | zero =>
      rw [List.getElem?_cons_zero] at h
      injection h with h
      subst h
      rw [set_cons_zero]
      simp [nOcc, tableMembers_cons_some, tableMembers_cons_none]
    | succ m =>
      rw [List.getElem?_cons_succ] at h
      rw [set_cons_succ]
      cases o with
      | none =>
        simp only [nOcc, tableMembers_cons_none]
        exact ih h
      | some a =>
        simp only [nOcc, tableMembers_cons_some, List.length_cons]
        have := ih h
        simp only [nOcc] at this
        omega

theorem mem_tableMembers_of_get? {t : List (Option String)} {j : Nat} {k : String}
    (h : t[j]? = some (some k)) : k ∈ tableMembers t := by
  have hmem : some k ∈ t := List.getElem?_mem h
  exact List.mem_filterMap.mpr ⟨some k, hmem, rfl⟩

theorem probeFind_spec {t : List (Option String)} {key : String} :
    ∀ {fuel j perturb i}, probeFind t key fuel j perturb = some i →
      t[i]? = some none ∨ t[i]? = some (some key) := by
  intro fuel
  induction fuel with
  | zero => intro j perturb i h; simp [probeFind] at h
  | succ f ih =>
    intro j perturb i h
    rw [probeFind] at h
    cases hg : t[j]? with
    | none => rw [hg] at h; exact absurd h (by simp)
    | some o =>
      cases o with
      | none =>
        rw [hg] at h
        simp at h
        exact Or.inl (h ▸ hg)
      | some k2 =>
        rw [hg] at h
        by_cases hk : k2 = key
        · simp [hk] at h
          exact Or.inr (h ▸ (hk ▸ hg))
        · simp [hk] at h
          exact ih h

theorem firstNoneIdx_spec {t : List (Option String)} {j : Nat}
    (h : firstNoneIdx t = some j) : t[j]? = some none := by
  induction t generalizing j with
  | nil => simp [firstNoneIdx] at h
  | cons o rest ih =>
    cases o with
    | none => simp [firstNoneIdx] at h; simp [← h]
    | some a =>
      simp only [firstNoneIdx, Option.map_eq_some'] at h
      obtain ⟨m, hm, hj⟩ := h
      subst hj
      simpa using ih hm

theorem firstNoneIdx_isSome {t : List (Option String)}
    (h : nOcc t < t.length) : (firstNoneIdx t).isSome := by
  induction t with
  | nil => simp [nOcc, tableMembers_nil] at h
  | cons o rest ih =>
    cases o with
    | none => simp [firstNoneIdx]
    | some a =>
      simp only [nOcc, tableMembers_cons_some, List.length_cons] at h
      have := ih (by simpa [nOcc] using Nat.lt_of_succ_lt_succ h)
      simp only [firstNoneIdx, Option.isSome_map']
      exact this

theorem insertKey_probe_empty {t : List (Option String)} {k : String} {j : Nat}
    (hp : probeFind t k (t.length + 16) (py2hash k % t.length) (py2hash k) = some j)
    (hg : t[j]? = some none) : insertKey t k = t.set j (some k) := by
  unfold insertKey
  rw [hp]
  simp only [hg]

theorem insertKey_probe_stop {t : List (Option String)} {k : String} {j : Nat}
    (hp : probeFind t k (t.length + 16) (py2hash k % t.length) (py2hash k) = some j)
    (hg : t[j]? ≠ some none) : insertKey t k = t := by
  unfold insertKey
  rw [hp]
  rcases ho : t[j]? with _ | o
  · simp only []
  · cases o with
    | none => exact absurd ho hg
    | some k2 => simp only []

theorem insertKey_fallback {t : List (Option String)} {k : String}
    (hp : probeFind t k (t.length + 16) (py2hash k % t.length) (py2hash k) = none) :
    insertKey t k =
      (if k ∈ tableMembers t then t
       else match firstNoneIdx t with
            | some j => t.set j (some k)
            | none => t) := by
  unfold insertKey
  rw [hp]

theorem length_insertKey (t : List (Option String)) (k : String) :
    (insertKey t k).length = t.length := by
  rcases hp : probeFind t k (t.length + 16) (py2hash k % t.length) (py2hash k) with _ | j
  · rw [insertKey_fallback hp]
    by_cases hmem : k ∈ tableMembers t
    · simp [hmem]
    · simp only [hmem, if_false]
      rcases hf : firstNoneIdx t with _ | j
      · rfl
      · exact List.length_set t j (some k)
  · by_cases hg : t[j]? = some none
    · rw [insertKey_probe_empty hp hg]
      exact List.length_set t j (some k)
    · rw [insertKey_probe_stop hp hg]

theorem mem_insertKey_self {t : List (Option String)} {k : String}
    (h : nOcc t < t.length) : k ∈ tableMembers (insertKey t k) := by
  rcases hp : probeFind t k (t.length + 16) (py2hash k % t.length) (py2hash k) with _ | j
  · rw [insertKey_fallback hp]
    by_cases hmem : k ∈ tableMembers t
    · simpa [hmem] using hmem
    · simp only [hmem, if_false]
      rcases hf : firstNoneIdx t with _ | j
      · have := firstNoneIdx_isSome h
        rw [hf] at this
        exact absurd this (by simp)
      · exact mem_tableMembers_set (firstNoneIdx_spec hf)
  · by_cases hg : t[j]? = some none
    · rw [insertKey_probe_empty hp hg]
      exact mem_tableMembers_set hg
    · rw [insertKey_probe_stop hp hg]
      rcases probeFind_spec hp with hg2 | hg2
      · exact absurd hg2 hg
      · exact mem_tableMembers_of_get? hg2

theorem mem_insertKey_of_mem {t : List (Option String)} {k k2 : String}
    (h2 : k2 ∈ tableMembers t) : k2 ∈ tableMembers (insertKey t k) := by
  rcases hp : probeFind t k (t.length + 16) (py2hash k % t.length) (py2hash k) with _ | j
  · rw [insertKey_fallback hp]
    by_cases hmem : k ∈ tableMembers t
    · simpa [hmem] using h2
    · simp only [hmem, if_false]
      rcases hf : firstNoneIdx t with _ | j
      · exact h2
      · exact mem_tableMembers_set_of_mem (firstNoneIdx_spec hf) h2
  · by_cases hg : t[j]? = some none
    · rw [insertKey_probe_empty hp hg]
      exact mem_tableMembers_set_of_mem hg h2
    · rw [insertKey_probe_stop hp hg]
      exact h2

theorem mem_insertKey_subset {t : List (Option String)} {k k2 : String}
    (h : k2 ∈ tableMembers (insertKey t k)) : k2 = k ∨ k2 ∈ tableMembers t := by
  rcases hp : probeFind t k (t.length + 16) (py2hash k % t.length) (py2hash k) with _ | j
  · rw [insertKey_fallback hp] at h
    by_cases hmem : k ∈ tableMembers t
    · rw [if_pos hmem] at h
      exact Or.inr h
    · rw [if_neg hmem] at h
      rcases hf : firstNoneIdx t with _ | j <;> rw [hf] at h
      · exact Or.inr h
      · exact tableMembers_set_subset h
  · by_cases hg : t[j]? = some none
    · rw [insertKey_probe_empty hp hg] at h
      exact tableMembers_set_subset h
    · rw [insertKey_probe_stop hp hg] at h
      exact Or.inr h

theorem nOcc_insertKey_le (t : List (Option String)) (k : String) :
    nOcc (insertKey t k) ≤ nOcc t + 1 := by
  rcases hp : probeFind t k (t.length + 16) (py2hash k % t.length) (py2hash k) with _ | j
  · rw [insertKey_fallback hp]
    by_cases hmem : k ∈ tableMembers t
    · simp [hmem]
    · simp only [hmem, if_false]
      rcases hf : firstNoneIdx t with _ | j
      · exact Nat.le_succ _
      · rw [nOcc_set_none (firstNoneIdx_spec hf)]
  · by_cases hg : t[j]? = some none
    · rw [insertKey_probe_empty hp hg, nOcc_set_none hg]
    · rw [insertKey_probe_stop hp hg]
      exact Nat.le_succ _

/-- Folding `insertKey` over a list with enough free room: every old and
every newly inserted key is a member afterwards, the occupancy grows by at
most the number of insertions, and the size is unchanged. -/
theorem foldl_insertKey_spec (l : List String) :
    ∀ t : List (Option String), nOcc t + l.length ≤ t.length →
      (∀ k ∈ tableMembers t, k ∈ tableMembers (l.foldl insertKey t)) ∧
      (∀ k ∈ l, k ∈ tableMembers (l.foldl insertKey t)) ∧
      nOcc (l.foldl insertKey t) ≤ nOcc t + l.length ∧
      (l.foldl insertKey t).length = t.length := by
  induction l with
  | nil =>
    intro t ht
    exact ⟨fun k hk => hk, by simp, by simp, rfl⟩
  | cons a rest ih =>
    intro t ht
    simp only [List.length_cons] at ht
    have hroom : nOcc t < t.length := by omega
    have hlen := length_insertKey t a
    have hocc := nOcc_insertKey_le t a
    have hrec := ih (insertKey t a) (by omega)
    obtain ⟨hold, hnew, hocc2, hlen2⟩ := hrec
    refine ⟨?_, ?_, ?_, ?_⟩
    · intro k hk
      exact hold k (mem_insertKey_of_mem hk)
    · intro k hk
      rcases List.mem_cons.mp hk with h | h
      · exact h ▸ hold a (mem_insertKey_self hroom)
      · exact hnew k h
    · simp only [List.foldl_cons, List.length_cons]
      omega
    · simp only [List.foldl_cons, List.length_cons]
      omega

theorem tableMembers_foldl_subset (l : List String) :
    ∀ (t : List (Option String)) (k2 : String),
      k2 ∈ tableMembers (l.foldl insertKey t) → k2 ∈ tableMembers t ∨ k2 ∈ l := by
  induction l with
  | nil => intro t k2 h; exact Or.inl h
  | cons a rest ih =>
    intro t k2 h
    simp only [List.foldl_cons] at h
    rcases ih (insertKey t a) k2 h with h2 | h2
    · rcases mem_insertKey_subset h2 with h3 | h3
      · exact Or.inr (h3 ▸ List.mem_cons_self _ _)
      · exact Or.inl h3
    · exact Or.inr (List.mem_cons_of_mem _ h2)

theorem lt_computeNewSize (m : Nat) : m < computeNewSize m := by
  unfold computeNewSize
  rcases Nat.eq_zero_or_pos m with h | h
  · subst h
    simp
  · have hlt : m < 2 ^ (Nat.log2 m + 1) :=
      (Nat.log2_lt (Nat.pos_iff_ne_zero.mp h)).mp (Nat.lt_succ_self _)
    exact lt_of_lt_of_le hlt (le_max_right _ _)

theorem le_computeNewSize (m : Nat) : 8 ≤ computeNewSize m := le_max_left _ _

/-- A table CPython could be holding: non-empty, and within the load
factor maintained by the growth rule. -/
def goodTable (t : List (Option String)) : Prop :=
  0 < t.length ∧ 3 * nOcc t < 2 * t.length

theorem goodTable_replicate8 : goodTable (List.replicate 8 none) := by
  constructor <;> decide

theorem nOcc_eq (t : List (Option String)) : nOcc t = (tableMembers t).length := rfl

theorem pyResize_spec (t2 : List (Option String)) :
    (∀ k ∈ tableMembers t2, k ∈ tableMembers (pyResize t2)) ∧
    (∀ k2 ∈ tableMembers (pyResize t2), k2 ∈ tableMembers t2) ∧
    goodTable (pyResize t2) := by
  have hm_le : nOcc t2 ≤ (if nOcc t2 > 50000 then 2 else 4) * nOcc t2 := by
    split <;> omega
  have hlt := lt_computeNewSize ((if nOcc t2 > 50000 then 2 else 4) * nOcc t2)
  have h8 := le_computeNewSize ((if nOcc t2 > 50000 then 2 else 4) * nOcc t2)
  have hroom : nOcc (List.replicate (computeNewSize ((if nOcc t2 > 50000 then 2 else 4) * nOcc t2)) (none : Option String))
      + (tableMembers t2).length ≤ (List.replicate (computeNewSize ((if nOcc t2 > 50000 then 2 else 4) * nOcc t2)) (none : Option String)).length := by
    simp only [nOcc_eq, tableMembers_replicate, List.length_nil, List.length_replicate]
    simp only [nOcc_eq] at hlt hm_le
    omega
  obtain ⟨hold, hnew, hocc, hlen⟩ := foldl_insertKey_spec (tableMembers t2) _ hroom
  have hres : pyResize t2 = (tableMembers t2).foldl insertKey
      (List.replicate (computeNewSize ((if nOcc t2 > 50000 then 2 else 4) * nOcc t2)) none) := rfl
  rw [hres]
  refine ⟨fun k hk => hnew k hk, ?_, ?_⟩
  · intro k2 hk2
    rcases tableMembers_foldl_subset _ _ _ hk2 with h | h
    · rw [tableMembers_replicate] at h
      cases h
    · exact h
  · constructor
    · simp only [nOcc_eq, tableMembers_replicate, List.length_nil, List.length_replicate,
        Nat.zero_add] at hlen h8 ⊢
      rw [hlen]
      omega
    · simp only [nOcc_eq, tableMembers_replicate, List.length_nil, List.length_replicate,
        Nat.zero_add] at hocc hlen hlt hm_le h8 ⊢
      rw [hlen]
      by_cases h5 : (tableMembers t2).length > 50000 <;>
        simp only [h5, if_true, if_false] at hlt hm_le hocc h8 ⊢ <;> omega

theorem insertGrow_spec {t : List (Option String)} (h : goodTable t) (k : String) :
    k ∈ tableMembers (insertGrow t k) ∧
    (∀ k2 ∈ tableMembers t, k2 ∈ tableMembers (insertGrow t k)) ∧
    (∀ k2 ∈ tableMembers (insertGrow t k), k2 = k ∨ k2 ∈ tableMembers t) ∧
    goodTable (insertGrow t k) := by
  obtain ⟨hpos, hload⟩ := h
  have hr : nOcc t < t.length := by omega
  unfold insertGrow
  by_cases hc : 3 * nOcc (insertKey t k) ≥ 2 * (insertKey t k).length
  · simp only [hc, if_true]
    obtain ⟨hold, hsub, hgood⟩ := pyResize_spec (insertKey t k)
    refine ⟨hold _ (mem_insertKey_self hr), ?_, ?_, hgood⟩
    · intro k2 hk2
      exact hold _ (mem_insertKey_of_mem hk2)
    · intro k2 hk2
      exact mem_insertKey_subset (hsub _ hk2)
  · simp only [hc, if_false]
    have hlen := length_insertKey t k
    refine ⟨mem_insertKey_self hr, fun k2 hk2 => mem_insertKey_of_mem hk2,
      fun k2 hk2 => mem_insertKey_subset hk2, ?_, ?_⟩
    · omega
    · omega

theorem foldl_insertGrow_spec (l : List String) :
    ∀ t : List (Option String), goodTable t →
      goodTable (l.foldl insertGrow t) ∧
      (∀ k ∈ tableMembers t, k ∈ tableMembers (l.foldl insertGrow t)) ∧
      (∀ k ∈ l, k ∈ tableMembers (l.foldl insertGrow t)) ∧
      (∀ k2 ∈ tableMembers (l.foldl insertGrow t), k2 ∈ tableMembers t ∨ k2 ∈ l) := by
  induction l with
  | nil =>
    intro t ht
    exact ⟨ht, fun k hk => hk, by simp, fun k2 hk2 => Or.inl hk2⟩
  | cons a rest ih =>
    intro t ht
    obtain ⟨hmem, hold, hsub, hgood⟩ := insertGrow_spec ht a
    obtain ⟨hgood2, hold2, hnew2, hsub2⟩ := ih (insertGrow t a) hgood
    simp only [List.foldl_cons]
    refine ⟨hgood2, ?_, ?_, ?_⟩
    · intro k hk
      exact hold2 k (hold k hk)
    · intro k hk
      rcases List.mem_cons.mp hk with h | h
      · exact h ▸ hold2 a hmem
      · exact hnew2 k h
    · intro k2 hk2
      rcases hsub2 k2 hk2 with h | h
      · rcases hsub k2 h with h2 | h2
        · exact Or.inr (h2 ▸ List.mem_cons_self _ _)
        · exact Or.inl h2
      · exact Or.inr (List.mem_cons_of_mem _ h)

/-- The CPython set/dict iteration order lists exactly the inserted keys. -/
theorem mem_pySetOrder {l : List String} {s : String} :
    s ∈ pySetOrder l ↔ s ∈ l := by
  obtain ⟨hgood, hold, hnew, hsub⟩ := foldl_insertGrow_spec l _ goodTable_replicate8
  constructor
  · intro h
    rcases hsub s h with h2 | h2
    · rw [tableMembers_replicate] at h2
      cases h2
    · exact h2
  · intro h
    exact hnew s h

/-! ## Association-list lemmas -/

theorem alookup_aset_self {α : Type} (l : List (String × α)) (k : String) (v : α) :
    alookup (aset l k v) k = some v := by
  induction l with
  | nil => simp [aset, alookup]
  | cons p rest ih =>
    by_cases h : p.1 = k
    · simp [aset, alookup, h]
    · simp [aset, alookup, h, ih]

theorem alookup_aset_ne {α : Type} (l : List (String × α)) {k k2 : String} (v : α)
    (h : k ≠ k2) : alookup (aset l k v) k2 = alookup l k2 := by
  induction l with
  | nil => simp [aset, alookup, h]
  | cons p rest ih =>
    by_cases hp : p.1 = k
    · simp [aset, alookup, hp, h]
    · simp [aset, alookup, hp, ih]

theorem keysOf_aset {α : Type} (l : List (String × α)) (k : String) (v : α) :
    keysOf (aset l k v) = if k ∈ keysOf l then keysOf l else keysOf l ++ [k] := by
  induction l with
  | nil => simp [aset, keysOf]
  | cons p rest ih =>
    by_cases hp : p.1 = k
    · simp [aset, keysOf, hp]
    · simp only [aset, keysOf, List.map_cons] at ih ⊢
      rw [if_neg hp]
      simp only [List.map_cons, List.mem_cons]
      by_cases hk : k ∈ List.map Prod.fst rest
      · rw [if_pos (Or.inr hk)]
        rw [if_pos hk] at ih
        rw [ih]
      · rw [if_neg (by push_neg; exact ⟨fun he => hp he.symm, hk⟩)]
        rw [if_neg hk] at ih
        rw [ih]
        rfl

theorem keysOf_aset_of_lookup {α : Type} {l : List (String × α)} {k : String}
    (v : α) (h : (alookup l k).isSome) : keysOf (aset l k v) = keysOf l := by
  rw [keysOf_aset]
  rw [if_pos]
  induction l with
  | nil => simp [alookup] at h
  | cons p rest ih =>
    by_cases hp : p.1 = k
    · simp [keysOf, hp]
    · simp only [alookup, hp, if_false] at h
      simp only [keysOf, List.map_cons, List.mem_cons]
      exact Or.inr (ih h)

theorem alookup_isSome_iff {α : Type} {l : List (String × α)} {k : String} :
    (alookup l k).isSome ↔ k ∈ keysOf l := by
  induction l with
  | nil => simp [alookup, keysOf]
  | cons p rest ih =>
    by_cases hp : p.1 = k
    · simp [alookup, keysOf, hp]
    · simp only [alookup, hp, if_false, keysOf, List.map_cons, List.mem_cons]
      rw [ih]
      constructor
      · exact Or.inr
      · rintro (h | h)
        · exact absurd h.symm hp
        · exact h

theorem alookup_mem {α : Type} {l : List (String × α)} {k : String} {v : α}
    (h : alookup l k = some v) : (k, v) ∈ l := by
  induction l with
  | nil => simp [alookup] at h
  | cons p rest ih =>
    obtain ⟨pk, pv⟩ := p
    by_cases hp : pk = k
    · simp only [alookup, hp, if_true, Option.some_inj] at h
      subst hp
      subst h
      exact List.mem_cons_self _ _
    · simp only [alookup, hp, if_false] at h
      exact List.mem_cons_of_mem _ (ih h)

theorem alookup_of_mem_nodup {α : Type} {l : List (String × α)}
    (hnd : (keysOf l).Nodup) {k : String} {v : α} (h : (k, v) ∈ l) :
    alookup l k = some v := by
  induction l with
  | nil => cases h
  | cons p rest ih =>
    obtain ⟨pk, pv⟩ := p
    simp only [keysOf, List.map_cons, List.nodup_cons] at hnd
    rcases List.mem_cons.mp h with h2 | h2
    · injection h2 with h3 h4
      subst h3
      subst h4
      simp [alookup]
    · by_cases hp : pk = k
      · subst hp
        exact absurd (List.mem_map.mpr ⟨(pk, v), h2, rfl⟩) hnd.1
      · simp only [alookup, hp, if_false]
        exact ih hnd.2 h2

theorem keysOf_nodup_aset {α : Type} {l : List (String × α)}
    (hnd : (keysOf l).Nodup) (k : String) (v : α) :
    (keysOf (aset l k v)).Nodup := by
  rw [keysOf_aset]
  by_cases hk : k ∈ keysOf l
  · simpa [hk] using hnd
  · simp only [hk, if_false]
    simpa [List.nodup_append] using ⟨hnd, hk⟩

/-! ## `setAdd` lemmas -/

theorem mem_setAdd_self (l : List String) (s : String) : s ∈ setAdd l s := by
  unfold setAdd
  by_cases h : s ∈ l
  · simpa [h] using h
  · simp [h]

theorem mem_setAdd_of_mem {l : List String} {s2 : String} (s : String)
    (h : s2 ∈ l) : s2 ∈ setAdd l s := by
  unfold setAdd
  by_cases hm : s ∈ l
  · simpa [hm] using h
  · simp [hm, List.mem_append]
    exact Or.inl h

theorem mem_setAdd_subset {l : List String} {s s2 : String}
    (h : s2 ∈ setAdd l s) : s2 = s ∨ s2 ∈ l := by
  unfold setAdd at h
  by_cases hm : s ∈ l
  · rw [if_pos hm] at h
    exact Or.inr h
  · rw [if_neg hm] at h
    rcases List.mem_append.mp h with h2 | h2
    · exact Or.inr h2
    · exact Or.inl (by simpa using h2)


/-! ## `scanLoop` and `checkDone` lemmas -/

theorem scanLoop_cons_none {st : RunState} {s : String} {rest : List String}
    (ha : alookup st.devCmdDict s = none) :
    scanLoop st (s :: rest) = scanLoop st rest := by
  simp only [scanLoop, ha]

theorem scanLoop_cons_some {st : RunState} {s : String} {rest : List String}
    {tc : TrackedCmd} (ha : alookup st.devCmdDict s = some tc) :
    scanLoop st (s :: rest) =
      if tc.state.isDone then
        scanLoop
          (if tc.state.didFail then
            { st with failSlotSet := setAdd st.failSlotSet s } else st) rest
      else (st, false) := by
  simp only [scanLoop, ha]

theorem scanLoop_userCmd (st : RunState) (order : List String) :
    (scanLoop st order).1.userCmd = st.userCmd := by
  induction order generalizing st with
  | nil => rfl
  | cons s rest ih =>
    unfold scanLoop
    rcases ha : alookup st.devCmdDict s with _ | tc
    · exact ih st
    · by_cases hd : tc.state.isDone
      · simp only [hd, if_true]
        split <;> exact ih _
      · simp only [hd]
        rfl

theorem scanLoop_devCmdDict (st : RunState) (order : List String) :
    (scanLoop st order).1.devCmdDict = st.devCmdDict := by
  induction order generalizing st with
  | nil => rfl
  | cons s rest ih =>
    unfold scanLoop
    rcases ha : alookup st.devCmdDict s with _ | tc
    · exact ih st
    · by_cases hd : tc.state.isDone
      · simp only [hd, if_true]
        split <;> exact ih _
      · simp only [hd]
        rfl

theorem scanLoop_writes (st : RunState) (order : List String) :
    (scanLoop st order).1.writes = st.writes := by
  induction order generalizing st with
  | nil => rfl
  | cons s rest ih =>
    unfold scanLoop
    rcases ha : alookup st.devCmdDict s with _ | tc
    · exact ih st
    · by_cases hd : tc.state.isDone
      · simp only [hd, if_true]
        split <;> exact ih _
      · simp only [hd]
        rfl

theorem scanLoop_issued (st : RunState) (order : List String) :
    (scanLoop st order).1.issued = st.issued := by
  induction order generalizing st with
  | nil => rfl
  | cons s rest ih =>
    unfold scanLoop
    rcases ha : alookup st.devCmdDict s with _ | tc
    · exact ih st
    · by_cases hd : tc.state.isDone
      · simp only [hd, if_true]
        split <;> exact ih _
      · simp only [hd]
        rfl

theorem scanLoop_fail_mono {st : RunState} {order : List String} {s2 : String}
    (h : s2 ∈ st.failSlotSet) : s2 ∈ (scanLoop st order).1.failSlotSet := by
  induction order generalizing st with
  | nil => exact h
  | cons s rest ih =>
    unfold scanLoop
    rcases ha : alookup st.devCmdDict s with _ | tc
    · exact ih h
    · by_cases hd : tc.state.isDone
      · simp only [hd, if_true]
        by_cases hf : tc.state.didFail
        · simp only [hf, if_true]
          exact ih (mem_setAdd_of_mem _ h)
        · simp only [hf, if_false]
          exact ih h
      · simp only [hd]
        exact h

theorem scanLoop_true_of_allDone {st : RunState} (order : List String)
    (h : ∀ s tc, alookup st.devCmdDict s = some tc → tc.state.isDone = true) :
    (scanLoop st order).2 = true := by
  induction order generalizing st with
  | nil => rfl
  | cons s rest ih =>
    rcases ha : alookup st.devCmdDict s with _ | tc
    · rw [scanLoop_cons_none ha]
      exact ih h
    · rw [scanLoop_cons_some ha, h s tc ha]
      simp only [if_true]
      split
      · exact ih (fun s2 tc2 ha2 => h s2 tc2 ha2)
      · exact ih h

theorem scanLoop_false_of_notDone {st : RunState} {order : List String}
    {s : String} {tc : TrackedCmd} (hmem : s ∈ order)
    (ha : alookup st.devCmdDict s = some tc) (hnd : tc.state.isDone = false) :
    (scanLoop st order).2 = false := by
  induction order generalizing st with
  | nil => cases hmem
  | cons x rest ih =>
    rcases hax : alookup st.devCmdDict x with _ | tcx
    · rw [scanLoop_cons_none hax]
      rcases List.mem_cons.mp hmem with h2 | h2
      · rw [h2] at ha
        rw [hax] at ha
        cases ha
      · exact ih h2 ha
    · rw [scanLoop_cons_some hax]
      by_cases hd : tcx.state.isDone
      · simp only [hd, if_true]
        rcases List.mem_cons.mp hmem with h2 | h2
        · subst h2
          rw [hax] at ha
          injection ha with ha2
          subst ha2
          rw [hd] at hnd
          cases hnd
        · split
          · exact ih h2 (by simpa using ha)
          · exact ih h2 ha
      · simp only [hd]
        rfl

theorem scanLoop_adds_fails {st : RunState} {order : List String}
    {s : String} {tc : TrackedCmd} (hmem : s ∈ order)
    (ha : alookup st.devCmdDict s = some tc) (hf : tc.state.didFail = true)
    (htrue : (scanLoop st order).2 = true) :
    s ∈ (scanLoop st order).1.failSlotSet := by
  induction order generalizing st with
  | nil => cases hmem
  | cons x rest ih =>
    rcases hax : alookup st.devCmdDict x with _ | tcx
    · rw [scanLoop_cons_none hax] at htrue ⊢
      rcases List.mem_cons.mp hmem with h2 | h2
      · rw [h2] at ha
        rw [hax] at ha
        cases ha
      · exact ih h2 ha htrue
    · rw [scanLoop_cons_some hax] at htrue ⊢
      by_cases hd : tcx.state.isDone
      · simp only [hd, if_true] at htrue ⊢
        rcases List.mem_cons.mp hmem with h2 | h2
        · subst h2
          rw [hax] at ha
          injection ha with ha2
          subst ha2
          rw [hf] at htrue ⊢
          simp only [if_true] at htrue ⊢
          exact scanLoop_fail_mono (mem_setAdd_self _ _)
        · by_cases hfx : tcx.state.didFail
          · simp only [hfx, if_true] at htrue ⊢
            exact ih h2 ha htrue
          · simp only [hfx, if_false] at htrue ⊢
            exact ih h2 ha htrue
      · simp only [hd] at htrue
        cases htrue

theorem checkDone_devCmdDict (st : RunState) :
    (checkDone st).devCmdDict = st.devCmdDict := by
  unfold checkDone
  rcases hs : scanLoop st (pySetOrder (keysOf st.devCmdDict)) with ⟨st2, b⟩
  have h2 : st2.devCmdDict = st.devCmdDict := by
    have := scanLoop_devCmdDict st (pySetOrder (keysOf st.devCmdDict))
    rw [hs] at this
    exact this
  cases b
  · exact h2
  · simp only []
    split
    · exact h2
    · split <;> exact h2

theorem checkDone_writes (st : RunState) :
    (checkDone st).writes = st.writes := by
  unfold checkDone
  rcases hs : scanLoop st (pySetOrder (keysOf st.devCmdDict)) with ⟨st2, b⟩
  have h2 : st2.writes = st.writes := by
    have := scanLoop_writes st (pySetOrder (keysOf st.devCmdDict))
    rw [hs] at this
    exact this
  cases b
  · exact h2
  · simp only []
    split
    · exact h2
    · split <;> exact h2

theorem checkDone_issued (st : RunState) :
    (checkDone st).issued = st.issued := by
  unfold checkDone
  rcases hs : scanLoop st (pySetOrder (keysOf st.devCmdDict)) with ⟨st2, b⟩
  have h2 : st2.issued = st.issued := by
    have := scanLoop_issued st (pySetOrder (keysOf st.devCmdDict))
    rw [hs] at this
    exact this
  cases b
  · exact h2
  · simp only []
    split
    · exact h2
    · split <;> exact h2

theorem checkDone_fail_mono {st : RunState} {s : String}
    (h : s ∈ st.failSlotSet) : s ∈ (checkDone st).failSlotSet := by
  unfold checkDone
  rcases hs : scanLoop st (pySetOrder (keysOf st.devCmdDict)) with ⟨st2, b⟩
  have h2 : s ∈ st2.failSlotSet := by
    have := @scanLoop_fail_mono st (pySetOrder (keysOf st.devCmdDict)) s h
    rw [hs] at this
    exact this
  cases b
  · exact h2
  · simp only []
    split
    · exact h2
    · split <;> exact h2

theorem checkDone_userCmd_of_isDone {st : RunState}
    (h : st.userCmd.state.isDone = true) : (checkDone st).userCmd = st.userCmd := by
  unfold checkDone
  rcases hs : scanLoop st (pySetOrder (keysOf st.devCmdDict)) with ⟨st2, b⟩
  have h2 : st2.userCmd = st.userCmd := by
    have := scanLoop_userCmd st (pySetOrder (keysOf st.devCmdDict))
    rw [hs] at this
    exact this
  cases b
  · exact h2
  · simp only []
    rw [h2, h]
    simp only [if_true]
    exact h2

theorem checkDone_eq_scan_false {st st2 : RunState}
    (hs : scanLoop st (pySetOrder (keysOf st.devCmdDict)) = (st2, false)) :
    checkDone st = st2 := by
  simp only [checkDone, hs]

theorem checkDone_eq_scan_true {st st2 : RunState}
    (hs : scanLoop st (pySetOrder (keysOf st.devCmdDict)) = (st2, true)) :
    checkDone st =
      (if st2.userCmd.state.isDone then st2
       else if st2.failSlotSet.isEmpty then { st2 with userCmd := ⟨.done, ""⟩ }
       else { st2 with userCmd := ⟨.failed, failMsg st2.failSlotSet⟩ }) := by
  simp only [checkDone, hs]

theorem checkDone_userCmd_of_running {st : RunState} {s : String} {tc : TrackedCmd}
    (ha : alookup st.devCmdDict s = some tc) (hr : tc.state.isDone = false) :
    (checkDone st).userCmd = st.userCmd := by
  have hmem : s ∈ pySetOrder (keysOf st.devCmdDict) :=
    mem_pySetOrder.mpr (alookup_isSome_iff.mp (by rw [ha]; rfl))
  have hfalse := scanLoop_false_of_notDone hmem ha hr
  have hu := scanLoop_userCmd st (pySetOrder (keysOf st.devCmdDict))
  rcases hs : scanLoop st (pySetOrder (keysOf st.devCmdDict)) with ⟨st2, b⟩
  rw [hs] at hfalse hu
  simp only at hfalse hu
  subst hfalse
  rw [checkDone_eq_scan_false hs]
  exact hu

theorem checkDone_resolves {st : RunState}
    (hall : ∀ s tc, alookup st.devCmdDict s = some tc → tc.state.isDone = true)
    (hnot : st.userCmd.state.isDone = false) :
    (checkDone st).userCmd.state.isDone = true ∧
    ((checkDone st).failSlotSet = [] → (checkDone st).userCmd = ⟨.done, ""⟩) ∧
    ((checkDone st).failSlotSet ≠ [] →
      (checkDone st).userCmd = ⟨.failed, failMsg (checkDone st).failSlotSet⟩) := by
  have htrue := @scanLoop_true_of_allDone st (pySetOrder (keysOf st.devCmdDict)) hall
  have hu := scanLoop_userCmd st (pySetOrder (keysOf st.devCmdDict))
  rcases hs : scanLoop st (pySetOrder (keysOf st.devCmdDict)) with ⟨st2, b⟩
  rw [hs] at htrue hu
  simp only at htrue hu
  subst htrue
  rw [checkDone_eq_scan_true hs, hu, hnot]
  simp only [Bool.false_eq_true, if_false]
  by_cases hemp : st2.failSlotSet.isEmpty
  · have hnil : st2.failSlotSet = [] := List.isEmpty_iff.mp hemp
    simp only [hemp, if_true]
    refine ⟨by trivial, fun _ => by trivial, fun hne => absurd hnil hne⟩
  · have hnenil : st2.failSlotSet ≠ [] := fun h => hemp (by rw [h]; rfl)
    simp only [hemp, if_false]
    exact ⟨by trivial, fun h => absurd h hnenil, fun _ => by trivial⟩

theorem checkDone_records_fails {st : RunState}
    (hall : ∀ s tc, alookup st.devCmdDict s = some tc → tc.state.isDone = true)
    {s : String} {tc : TrackedCmd} (ha : alookup st.devCmdDict s = some tc)
    (hf : tc.state.didFail = true) : s ∈ (checkDone st).failSlotSet := by
  have hmem : s ∈ pySetOrder (keysOf st.devCmdDict) :=
    mem_pySetOrder.mpr (alookup_isSome_iff.mp (by rw [ha]; rfl))
  have htrue := @scanLoop_true_of_allDone st (pySetOrder (keysOf st.devCmdDict)) hall
  have hadd := scanLoop_adds_fails hmem ha hf htrue
  rcases hs : scanLoop st (pySetOrder (keysOf st.devCmdDict)) with ⟨st2, b⟩
  rw [hs] at htrue hadd
  simp only at htrue hadd
  subst htrue
  rw [checkDone_eq_scan_true hs]
  split
  · exact hadd
  · split
    · exact hadd
    · exact hadd

/-! ## `step` lemmas -/

theorem recordFail_userCmd (st : RunState) (e : Ev) :
    (recordFail st e).userCmd = st.userCmd := by
  unfold recordFail
  split <;> rfl

theorem recordFail_devCmdDict (st : RunState) (e : Ev) :
    (recordFail st e).devCmdDict = st.devCmdDict := by
  unfold recordFail
  split <;> rfl

theorem recordFail_writes (st : RunState) (e : Ev) :
    (recordFail st e).writes = st.writes := by
  unfold recordFail
  split <;> rfl

theorem recordFail_issued (st : RunState) (e : Ev) :
    (recordFail st e).issued = st.issued := by
  unfold recordFail
  split <;> rfl

theorem storeResult_userCmd (st : RunState) (e : Ev) (tc : TrackedCmd) :
    (storeResult st e tc).userCmd = st.userCmd := by
  unfold storeResult
  rw [recordFail_userCmd]

theorem storeResult_writes (st : RunState) (e : Ev) (tc : TrackedCmd) :
    (storeResult st e tc).writes = st.writes := by
  unfold storeResult
  rw [recordFail_writes]

theorem storeResult_issued (st : RunState) (e : Ev) (tc : TrackedCmd) :
    (storeResult st e tc).issued = st.issued := by
  unfold storeResult
  rw [recordFail_issued]

theorem storeResult_devCmdDict (st : RunState) (e : Ev) (tc : TrackedCmd) :
    (storeResult st e tc).devCmdDict =
      aset st.devCmdDict e.slot { tc with state := e.result } := by
  unfold storeResult
  rw [recordFail_devCmdDict]

theorem applyCallFunc_userCmd (hasCF : Bool) (e : Ev) (tc : TrackedCmd)
    (st2 : RunState) : (applyCallFunc hasCF e tc st2).userCmd = st2.userCmd := by
  unfold applyCallFunc
  by_cases h : hasCF
  · simp only [h, if_true]
    cases e.cb <;> rfl
  · simp [h]

theorem applyCallFunc_issued (hasCF : Bool) (e : Ev) (tc : TrackedCmd)
    (st2 : RunState) : (applyCallFunc hasCF e tc st2).issued = st2.issued := by
  unfold applyCallFunc
  by_cases h : hasCF
  · simp only [h, if_true]
    cases e.cb <;> rfl
  · simp [h]

theorem step_eq_none {hasCF : Bool} {st : RunState} {e : Ev}
    (ha : alookup st.devCmdDict e.slot = none) : step hasCF st e = st := by
  simp only [step, ha]

theorem step_eq_chained {hasCF : Bool} {st : RunState} {e : Ev} {tc : TrackedCmd}
    (ha : alookup st.devCmdDict e.slot = some tc) (hc : tc.chained = true) :
    step hasCF st e =
      checkDone { st with devCmdDict := aset st.devCmdDict e.slot { tc with state := e.result } } := by
  simp only [step, ha, hc, if_true]

theorem step_eq_plain {hasCF : Bool} {st : RunState} {e : Ev} {tc : TrackedCmd}
    (ha : alookup st.devCmdDict e.slot = some tc) (hc : tc.chained = false) :
    step hasCF st e = checkDone (applyCallFunc hasCF e tc (storeResult st e tc)) := by
  simp only [step, ha, hc, Bool.false_eq_true, if_false]

theorem applyCallFunc_retNone (slot : String) (r : CmdState) (tc : TrackedCmd)
    (st2 : RunState) : applyCallFunc true ⟨slot, r, .retNone⟩ tc st2 = st2 := by
  simp only [applyCallFunc, if_true]

theorem applyCallFunc_chainEq (slot : String) (r : CmdState) (tc : TrackedCmd)
    (st2 : RunState) :
    applyCallFunc true ⟨slot, r, .chain⟩ tc st2 =
      { st2 with devCmdDict := aset st2.devCmdDict slot ⟨.running, "", true⟩ } := by
  simp only [applyCallFunc, if_true]

theorem applyCallFunc_raiseEq (slot : String) (r : CmdState) (tc : TrackedCmd)
    (st2 : RunState) :
    applyCallFunc true ⟨slot, r, .raiseExc⟩ tc st2 =
      { st2 with
        failSlotSet := setAdd st2.failSlotSet slot,
        writes := st2.writes ++
          [("f", slot ++ " command " ++ pyReprStr tc.cmdStr ++ " failed")] } := by
  simp only [applyCallFunc, if_true]

theorem applyCallFunc_fail_mono (hasCF : Bool) (e : Ev) (tc : TrackedCmd)
    {st2 : RunState} {s : String} (h : s ∈ st2.failSlotSet) :
    s ∈ (applyCallFunc hasCF e tc st2).failSlotSet := by
  unfold applyCallFunc
  by_cases hcf : hasCF
  · simp only [hcf, if_true]
    cases e.cb
    · exact h
    · exact h
    · exact mem_setAdd_of_mem _ h
  · simp only [hcf]
    simpa using h

theorem storeResult_fail_mono (e : Ev) (tc : TrackedCmd) {st : RunState}
    {s : String} (h : s ∈ st.failSlotSet) :
    s ∈ (storeResult st e tc).failSlotSet := by
  unfold storeResult recordFail
  split
  · exact mem_setAdd_of_mem _ h
  · exact h

theorem step_fail_mono (hasCF : Bool) {st : RunState} (e : Ev) {s : String}
    (h : s ∈ st.failSlotSet) : s ∈ (step hasCF st e).failSlotSet := by
  rcases ha : alookup st.devCmdDict e.slot with _ | tc
  · rw [step_eq_none ha]
    exact h
  · by_cases hc : tc.chained
    · rw [step_eq_chained ha hc]
      exact checkDone_fail_mono h
    · rw [step_eq_plain ha (by simpa using hc)]
      exact checkDone_fail_mono
        (applyCallFunc_fail_mono hasCF e tc (storeResult_fail_mono e tc h))

theorem runEvents_fail_mono (hasCF : Bool) (events : List Ev) :
    ∀ (st : RunState) (s : String), s ∈ st.failSlotSet →
      s ∈ (runEvents hasCF st events).failSlotSet := by
  induction events with
  | nil => intro st s h; exact h
  | cons e es ih =>
    intro st s h
    exact ih (step hasCF st e) s (step_fail_mono hasCF e h)

theorem step_records_plain_fail {hasCF : Bool} {st : RunState} {e : Ev}
    {tc : TrackedCmd} (ha : alookup st.devCmdDict e.slot = some tc)
    (hc : tc.chained = false) (hf : e.result.didFail = true) :
    e.slot ∈ (step hasCF st e).failSlotSet := by
  rw [step_eq_plain ha hc]
  refine checkDone_fail_mono (applyCallFunc_fail_mono hasCF e tc ?_)
  unfold storeResult recordFail
  rw [hf]
  simp only [if_true]
  exact mem_setAdd_self _ _

theorem step_dict_other {hasCF : Bool} (st : RunState) (e : Ev) {s : String}
    (hne : s ≠ e.slot) :
    alookup (step hasCF st e).devCmdDict s = alookup st.devCmdDict s := by
  rcases ha : alookup st.devCmdDict e.slot with _ | tc
  · rw [step_eq_none ha]
  · by_cases hc : tc.chained
    · rw [step_eq_chained ha hc, checkDone_devCmdDict]
      exact alookup_aset_ne _ _ (fun h2 => hne h2.symm)
    · rw [step_eq_plain ha (by simpa using hc), checkDone_devCmdDict]
      have h1 : (storeResult st e tc).devCmdDict =
          aset st.devCmdDict e.slot { tc with state := e.result } :=
        storeResult_devCmdDict st e tc
      unfold applyCallFunc
      by_cases hcf : hasCF
      · simp only [hcf, if_true]
        cases e.cb
        · rw [h1]
          exact alookup_aset_ne _ _ (fun h2 => hne h2.symm)
        · simp only []
          rw [alookup_aset_ne _ _ (fun h2 => hne h2.symm), h1]
          exact alookup_aset_ne _ _ (fun h2 => hne h2.symm)
        · simp only []
          rw [h1]
          exact alookup_aset_ne _ _ (fun h2 => hne h2.symm)
      · simp only [hcf]
        simp only [Bool.false_eq_true, if_false]
        rw [h1]
        exact alookup_aset_ne _ _ (fun h2 => hne h2.symm)

/-- A handle that has already completed is never looked at again: its dict
entry survives any further deliverable event. -/
theorem step_preserves_done_entry {hasCF : Bool} {st : RunState} {e : Ev}
    {s : String} {tc : TrackedCmd} (ha : alookup st.devCmdDict s = some tc)
    (hd : tc.state.isDone = true) (hval : validEv st e = true) :
    alookup (step hasCF st e).devCmdDict s = some tc := by
  by_cases hne : s = e.slot
  · subst hne
    unfold validEv at hval
    rw [ha] at hval
    simp only [Bool.and_eq_true, decide_eq_true_eq] at hval
    rw [hval.1] at hd
    cases hd
  · rw [step_dict_other st e hne]
    exact ha

theorem done_entry_stable (hasCF : Bool) (events : List Ev) :
    ∀ (st : RunState) (s : String) (tc : TrackedCmd),
      validTrace hasCF st events = true →
      alookup st.devCmdDict s = some tc → tc.state.isDone = true →
      alookup (runEvents hasCF st events).devCmdDict s = some tc := by
  induction events with
  | nil => intro st s tc _ ha _; exact ha
  | cons e es ih =>
    intro st s tc hval ha hd
    simp only [validTrace, Bool.and_eq_true] at hval
    exact ih (step hasCF st e) s tc hval.2 (step_preserves_done_entry ha hd hval.1) hd

/-! ## The resolution invariant -/

/-- Every tracked handle is terminal (lookup form). -/
def allDoneP (st : RunState) : Prop :=
  ∀ s tc, alookup st.devCmdDict s = some tc → tc.state.isDone = true

/-- The Governing Command was resolved the way `checkDone` resolves: Done
with an empty message when no slot failed, Failed with the joined
failed-slot message otherwise. -/
def resolvedRight (st : RunState) : Prop :=
  (st.failSlotSet = [] → st.userCmd = ⟨.done, ""⟩) ∧
  (st.failSlotSet ≠ [] → st.userCmd = ⟨.failed, failMsg st.failSlotSet⟩)

/-- Every slot whose current handle carries the failure flag is in
`failSlotSet`. -/
def failsRecorded (st : RunState) : Prop :=
  ∀ s tc, alookup st.devCmdDict s = some tc → tc.state.didFail = true →
    s ∈ st.failSlotSet

/-- The dispatch-run invariant: the Governing Command is terminal only
when every handle is, and once every handle is terminal the Governing
Command is resolved correctly with all failures recorded. -/
def Inv (st : RunState) : Prop :=
  (st.userCmd.state.isDone = true → allDoneP st) ∧
  (allDoneP st → resolvedRight st ∧ failsRecorded st)

theorem allDoneP_of_allDone {st : RunState} (h : allDone st = true) : allDoneP st := by
  intro s tc ha
  have hmem := alookup_mem ha
  unfold allDone at h
  rw [List.all_eq_true] at h
  exact h (s, tc) hmem

theorem Inv_checkDone {st0 : RunState} (hnot : st0.userCmd.state.isDone = false) :
    Inv (checkDone st0) := by
  have hdict := checkDone_devCmdDict st0
  by_cases hall : allDoneP st0
  · obtain ⟨h1, h2, h3⟩ := checkDone_resolves hall hnot
    constructor
    · intro _ s tc hal
      rw [hdict] at hal
      exact hall s tc hal
    · intro _
      refine ⟨⟨h2, h3⟩, ?_⟩
      intro s tc hal hf
      rw [hdict] at hal
      exact checkDone_records_fails hall hal hf
  · unfold allDoneP at hall
    push_neg at hall
    obtain ⟨s, tc, ha, hnd⟩ := hall
    have hnd2 : tc.state.isDone = false := by
      cases h2 : tc.state.isDone
      · rfl
      · exact absurd h2 hnd
    have hu := checkDone_userCmd_of_running ha hnd2
    constructor
    · intro hdone
      rw [hu, hnot] at hdone
      cases hdone
    · intro hallP
      exfalso
      apply hnd
      apply hallP s tc
      rw [hdict]
      exact ha

theorem Inv_step (hasCF : Bool) {st : RunState} {e : Ev} (hInv : Inv st)
    (hval : validEv st e = true) : Inv (step hasCF st e) := by
  unfold validEv at hval
  rcases ha : alookup st.devCmdDict e.slot with _ | tc <;> rw [ha] at hval
  · cases hval
  · simp only [Bool.and_eq_true, decide_eq_true_eq] at hval
    have hnotdone : st.userCmd.state.isDone = false := by
      cases hu : st.userCmd.state.isDone
      · rfl
      · exfalso
        have := hInv.1 hu e.slot tc ha
        rw [hval.1] at this
        cases this
    by_cases hc : tc.chained
    · rw [step_eq_chained ha hc]
      exact Inv_checkDone (by simpa using hnotdone)
    · rw [step_eq_plain ha (by simpa using hc)]
      refine Inv_checkDone ?_
      rw [applyCallFunc_userCmd, storeResult_userCmd]
      exact hnotdone

theorem Inv_runEvents (hasCF : Bool) (events : List Ev) :
    ∀ st : RunState, Inv st → validTrace hasCF st events = true →
      Inv (runEvents hasCF st events) := by
  induction events with
  | nil => intro st h _; exact h
  | cons e es ih =>
    intro st h hval
    simp only [validTrace, Bool.and_eq_true] at hval
    exact ih (step hasCF st e) (Inv_step hasCF h hval.1) hval.2

theorem expandUserCmd_not_done {u0 : Option UserCmdState} {u : UserCmdState}
    (h : expandUserCmd u0 = .ok u) : u.state.isDone = false := by
  cases u0 with
  | none =>
    simp only [expandUserCmd, Except.ok.injEq] at h
    rw [← h]
    rfl
  | some uc =>
    unfold expandUserCmd at h
    by_cases hd : uc.state.isDone
    · simp [hd] at h
    · simp only [hd, Bool.false_eq_true, if_false, Except.ok.injEq] at h
      rw [← h]
      simpa using hd

theorem issueCmds_go_userCmd (l : List (String × CmdSpec)) (timeLim : Nat) :
    ∀ st : RunState, (l.foldl (issueOne timeLim) st).userCmd = st.userCmd := by
  induction l with
  | nil => intro st; rfl
  | cons p rest ih =>
    intro st
    simp only [List.foldl_cons]
    rw [ih]
    rfl

theorem issueCmds_userCmd (cmdDict : List (String × CmdSpec)) (timeLim : Nat)
    (u : UserCmdState) : (issueCmds cmdDict timeLim u).userCmd = u := by
  unfold issueCmds
  rw [issueCmds_go_userCmd]

theorem runCmdDict_ok_elim {ds : DeviceSet} {cmdDict : List (String × CmdSpec)}
    {hasCF : Bool} {u0 : Option UserCmdState} {timeLim : Nat} {st0 : RunState}
    (h : runCmdDict ds cmdDict hasCF u0 timeLim = .ok st0) :
    ∃ u, ds.checkSlotList (keysOf cmdDict) = .ok () ∧ expandUserCmd u0 = .ok u ∧
      st0 = checkDone (issueCmds cmdDict timeLim u) := by
  unfold runCmdDict at h
  cases hcs : ds.checkSlotList (keysOf cmdDict) <;> rw [hcs] at h
  · simp [Bind.bind, Except.bind] at h
  · cases hexp : expandUserCmd u0 <;> rw [hexp] at h
    · simp [Bind.bind, Except.bind] at h
    · rename_i u
      simp only [Bind.bind, Except.bind, Except.ok.injEq] at h
      exact ⟨u, rfl, rfl, h.symm⟩

theorem Inv_init {ds : DeviceSet} {cmdDict : List (String × CmdSpec)}
    {hasCF : Bool} {u0 : Option UserCmdState} {timeLim : Nat} {st0 : RunState}
    (h : runCmdDict ds cmdDict hasCF u0 timeLim = .ok st0) : Inv st0 := by
  obtain ⟨u, hcs, hexp, hst⟩ := runCmdDict_ok_elim h
  subst hst
  refine Inv_checkDone ?_
  rw [issueCmds_userCmd]
  exact expandUserCmd_not_done hexp

theorem runEvents_nil (hasCF : Bool) (st : RunState) : runEvents hasCF st [] = st := rfl

theorem runEvents_cons (hasCF : Bool) (st : RunState) (e : Ev) (es : List Ev) :
    runEvents hasCF st (e :: es) = runEvents hasCF (step hasCF st e) es := rfl

theorem failed_event_trace (hasCF : Bool) (events : List Ev) :
    ∀ st : RunState, validTrace hasCF st events = true →
      ∀ e ∈ events, e.result.didFail = true →
        e.slot ∈ (runEvents hasCF st events).failSlotSet ∨
        ∃ tc, alookup (runEvents hasCF st events).devCmdDict e.slot = some tc ∧
          tc.state.didFail = true := by
  induction events with
  | nil =>
    intro st _ e he
    cases he
  | cons e2 es ih =>
    intro st hval e he hf
    simp only [validTrace, Bool.and_eq_true] at hval
    rw [runEvents_cons]
    rcases List.mem_cons.mp he with h2 | h2
    · subst h2
      have hv := hval.1
      unfold validEv at hv
      rcases ha : alookup st.devCmdDict e.slot with _ | tc <;> rw [ha] at hv
      · cases hv
      · simp only [Bool.and_eq_true, decide_eq_true_eq] at hv
        by_cases hc : tc.chained
        · right
          have hstep : alookup (step hasCF st e).devCmdDict e.slot =
              some { tc with state := e.result } := by
            rw [step_eq_chained ha hc, checkDone_devCmdDict]
            exact alookup_aset_self _ _ _
          refine ⟨{ tc with state := e.result }, ?_, hf⟩
          exact done_entry_stable hasCF es (step hasCF st e) e.slot _ hval.2 hstep hv.2
        · left
          exact runEvents_fail_mono hasCF es (step hasCF st e) e.slot
            (step_records_plain_fail ha (by simpa using hc) hf)
    · exact ih (step hasCF st e2) hval.2 e h2 hf

/-- C3 (amended): for every dispatch run, once all tracked handles are
terminal the Governing Command is resolved: to Failed — with a message
comma-joining every failed slot in the **`set` iteration order of CPython**
(hash-table order, not failure-detection order) — when any slot failed, and
to Done otherwise; every slot whose device command failed is named. -/
theorem runCmdDict_failure_aggregation (ds : DeviceSet)
    (cmdDict : List (String × CmdSpec)) (hasCF : Bool) (u0 : Option UserCmdState)
    (timeLim : Nat) (events : List Ev) (st0 : RunState)
    (hinit : runCmdDict ds cmdDict hasCF u0 timeLim = .ok st0)
    (hval : validTrace hasCF st0 events = true)
    (hdone : allDone (runEvents hasCF st0 events) = true) :
    ((runEvents hasCF st0 events).failSlotSet ≠ [] →
      (runEvents hasCF st0 events).userCmd =
        ⟨.failed, "Command failed for " ++
          commaJoin (pySetOrder (runEvents hasCF st0 events).failSlotSet)⟩) ∧
    ((runEvents hasCF st0 events).failSlotSet = [] →
      (runEvents hasCF st0 events).userCmd = ⟨.done, ""⟩) ∧
    (∀ e ∈ events, e.result.didFail = true →
      e.slot ∈ (runEvents hasCF st0 events).failSlotSet) ∧
    (∀ s, s ∈ pySetOrder (runEvents hasCF st0 events).failSlotSet ↔
      s ∈ (runEvents hasCF st0 events).failSlotSet) := by
  have hInv := Inv_runEvents hasCF events st0 (Inv_init hinit) hval
  have hallP := allDoneP_of_allDone hdone
  obtain ⟨hres, hrec⟩ := hInv.2 hallP
  refine ⟨?_, hres.1, ?_, fun s => mem_pySetOrder⟩
  · intro hne
    rw [hres.2 hne]
    rfl
  · intro e he hf
    rcases failed_event_trace hasCF events st0 hval e he hf with h | ⟨tc, ha, htf⟩
    · exact h
    · exact hrec e.slot tc ha htf

/-- C1: once the Governing Command is terminal, a completion event
(original, chained, or callback-raising, with or without `callFunc`) never
changes its state or message: `checkDone`'s resolution is guarded by
`if not self.userCmd.isDone`; the handle map may still be updated. -/
theorem governing_terminal_immutable (hasCF : Bool) (st : RunState) (e : Ev)
    (h : st.userCmd.state.isDone = true) :
    (step hasCF st e).userCmd = st.userCmd := by
  rcases ha : alookup st.devCmdDict e.slot with _ | tc
  · rw [step_eq_none ha]
  · by_cases hc : tc.chained
    · rw [step_eq_chained ha hc]
      exact checkDone_userCmd_of_isDone h
    · rw [step_eq_plain ha (by simpa using hc)]
      have h2 : (applyCallFunc hasCF e tc (storeResult st e tc)).userCmd = st.userCmd := by
        rw [applyCallFunc_userCmd, storeResult_userCmd]
      rw [checkDone_userCmd_of_isDone (by rw [h2]; exact h), h2]

/-- Concrete run state used by the C1 witness: the Governing Command is
already Failed while a straggling chained command for slot "b" is still
running. -/
def stC1 : RunState :=
  ⟨⟨.failed, "Command failed for a"⟩,
   [("a", ⟨.failed, "go", false⟩), ("b", ⟨.running, "go", true⟩)],
   ["a"], [], [("a", .single "go", 5), ("b", .single "go", 5)]⟩

theorem governing_terminal_immutable_witness :
    stC1.userCmd.state.isDone = true ∧
    (step true stC1 ⟨"b", .done, .retNone⟩).userCmd = stC1.userCmd :=
  ⟨by decide, governing_terminal_immutable true stC1 ⟨"b", .done, .retNone⟩ (by decide)⟩

theorem chain_step_dict {st : RunState} {slot : String} {r : CmdState}
    {tc : TrackedCmd} (ha : alookup st.devCmdDict slot = some tc)
    (hc : tc.chained = false) :
    (step true st ⟨slot, r, .chain⟩).devCmdDict =
      aset (aset st.devCmdDict slot { tc with state := r }) slot
        ⟨.running, "", true⟩ := by
  rw [step_eq_plain (e := ⟨slot, r, .chain⟩) ha hc, checkDone_devCmdDict,
    applyCallFunc_chainEq, storeResult_devCmdDict]

/-- C2: when `callFunc` returns a new device command for slot X, the new
handle replaces the stored handle for X (running, chained), the Governing
Command is not resolved by that completion even if every other slot is
already terminal, the chained handle's completion runs the plain
`newDevCmdCallback` (identical behavior whether or not a `callFunc` is
present — `callFunc` is not re-invoked), and once the chained handle
reaches a terminal state (with all other slots terminal) the Governing
Command resolves. -/
theorem chained_handle_extends_run (st : RunState) (slot : String)
    (r : CmdState) (tc : TrackedCmd)
    (ha : alookup st.devCmdDict slot = some tc) (hc : tc.chained = false)
    (hr : r.isDone = true) (hu : st.userCmd.state.isDone = false) :
    ((step true st ⟨slot, r, .chain⟩).userCmd = st.userCmd) ∧
    (alookup (step true st ⟨slot, r, .chain⟩).devCmdDict slot =
      some ⟨.running, "", true⟩) ∧
    (∀ (hasCF2 : Bool) (r2 : CmdState) (cb2 : CbAction),
      step hasCF2 (step true st ⟨slot, r, .chain⟩) ⟨slot, r2, cb2⟩ =
        step false (step true st ⟨slot, r, .chain⟩) ⟨slot, r2, .retNone⟩) ∧
    (∀ r2 : CmdState, r2.isDone = true →
      (∀ s2 tc2, s2 ≠ slot → alookup st.devCmdDict s2 = some tc2 →
        tc2.state.isDone = true) →
      ∀ cb2 : CbAction,
        (step true (step true st ⟨slot, r, .chain⟩)
          ⟨slot, r2, cb2⟩).userCmd.state.isDone = true) := by
  have hdict := chain_step_dict (r := r) ha hc
  have hlook : alookup (step true st ⟨slot, r, .chain⟩).devCmdDict slot =
      some ⟨.running, "", true⟩ := by
    rw [hdict]
    exact alookup_aset_self _ _ _
  have hother : ∀ s2, s2 ≠ slot →
      alookup (step true st ⟨slot, r, .chain⟩).devCmdDict s2 =
        alookup st.devCmdDict s2 := by
    intro s2 hne
    rw [hdict, alookup_aset_ne _ _ (fun h2 => hne h2.symm),
      alookup_aset_ne _ _ (fun h2 => hne h2.symm)]
  have huser : (step true st ⟨slot, r, .chain⟩).userCmd = st.userCmd := by
    rw [step_eq_plain (e := ⟨slot, r, .chain⟩) ha hc]
    have hY : alookup (applyCallFunc true ⟨slot, r, .chain⟩ tc
        (storeResult st ⟨slot, r, .chain⟩ tc)).devCmdDict slot =
        some ⟨.running, "", true⟩ := by
      rw [applyCallFunc_chainEq]
      exact alookup_aset_self _ _ _
    rw [checkDone_userCmd_of_running hY (by rfl), applyCallFunc_userCmd,
      storeResult_userCmd]
  refine ⟨huser, hlook, ?_, ?_⟩
  · intro hasCF2 r2 cb2
    rw [step_eq_chained (e := ⟨slot, r2, cb2⟩) hlook rfl,
      step_eq_chained (e := ⟨slot, r2, .retNone⟩) hlook rfl]
  · intro r2 hr2 hothers cb2
    rw [step_eq_chained (e := ⟨slot, r2, cb2⟩) hlook rfl]
    have hall : allDoneP { step true st ⟨slot, r, .chain⟩ with
        devCmdDict := aset (step true st ⟨slot, r, .chain⟩).devCmdDict slot
          { state := r2, cmdStr := "", chained := true } } := by
      intro s2 tc2 hal
      by_cases hne : s2 = slot
      · subst hne
        rw [alookup_aset_self] at hal
        injection hal with hal2
        rw [← hal2]
        exact hr2
      · rw [alookup_aset_ne _ _ (fun h2 => hne h2.symm), hother s2 hne] at hal
        exact hothers s2 tc2 hne hal
    have hnotdone : ({ step true st ⟨slot, r, .chain⟩ with
        devCmdDict := aset (step true st ⟨slot, r, .chain⟩).devCmdDict slot
          { state := r2, cmdStr := "", chained := true } } : RunState).userCmd.state.isDone = false := by
      show (step true st ⟨slot, r, .chain⟩).userCmd.state.isDone = false
      rw [huser]
      exact hu
    exact (checkDone_resolves hall hnotdone).1

/-- Concrete setup for the C2 witness: two slots, slot "b" already done,
slot "a" completes and its callback chains a new command. -/
def stC2 : RunState :=
  ⟨⟨.ready, ""⟩,
   [("a", ⟨.running, "go", false⟩), ("b", ⟨.done, "go", false⟩)],
   [], [], [("a", .single "go", 5), ("b", .single "go", 5)]⟩

theorem chained_handle_extends_run_witness :
    alookup stC2.devCmdDict "a" = some ⟨.running, "go", false⟩ ∧
    ((step true stC2 ⟨"a", .done, .chain⟩).userCmd = stC2.userCmd ∧
     alookup (step true stC2 ⟨"a", .done, .chain⟩).devCmdDict "a" =
       some ⟨.running, "", true⟩ ∧
     (∀ (hasCF2 : Bool) (r2 : CmdState) (cb2 : CbAction),
       step hasCF2 (step true stC2 ⟨"a", .done, .chain⟩) ⟨"a", r2, cb2⟩ =
         step false (step true stC2 ⟨"a", .done, .chain⟩) ⟨"a", r2, .retNone⟩) ∧
     (∀ r2 : CmdState, r2.isDone = true →
       (∀ s2 tc2, s2 ≠ "a" → alookup stC2.devCmdDict s2 = some tc2 →
         tc2.state.isDone = true) →
       ∀ cb2 : CbAction,
         (step true (step true stC2 ⟨"a", .done, .chain⟩)
           ⟨"a", r2, cb2⟩).userCmd.state.isDone = true)) :=
  ⟨by decide,
   chained_handle_extends_run stC2 "a" .done ⟨.running, "go", false⟩
     (by decide) (by decide) (by decide) (by decide)⟩

/-- C4: a `callFunc` exception for one completion is caught inside
`devCmdCallback` (the step is an ordinary state transition, nothing
propagates), the slot joins the failed-slot set, a severity-"f" report
`"%s command %r failed"` goes to the actor's error channel, and the
completion check still runs: when every other slot is already terminal the
Governing Command reaches a terminal state. -/
theorem callFunc_exception_contained (st : RunState) (slot : String)
    (r : CmdState) (tc : TrackedCmd)
    (ha : alookup st.devCmdDict slot = some tc) (hc : tc.chained = false)
    (hr : r.isDone = true) :
    (slot ∈ (step true st ⟨slot, r, .raiseExc⟩).failSlotSet) ∧
    ((step true st ⟨slot, r, .raiseExc⟩).writes = st.writes ++
      [("f", slot ++ " command " ++ pyReprStr tc.cmdStr ++ " failed")]) ∧
    ((∀ s2 tc2, s2 ≠ slot → alookup st.devCmdDict s2 = some tc2 →
        tc2.state.isDone = true) →
      (step true st ⟨slot, r, .raiseExc⟩).userCmd.state.isDone = true) := by
  have hstep : step true st ⟨slot, r, .raiseExc⟩ =
      checkDone (applyCallFunc true ⟨slot, r, .raiseExc⟩ tc
        (storeResult st ⟨slot, r, .raiseExc⟩ tc)) := step_eq_plain ha hc
  have hY := applyCallFunc_raiseEq slot r tc (storeResult st ⟨slot, r, .raiseExc⟩ tc)
  refine ⟨?_, ?_, ?_⟩
  · rw [hstep]
    refine checkDone_fail_mono ?_
    rw [hY]
    exact mem_setAdd_self _ _
  · rw [hstep, checkDone_writes, hY]
    show (storeResult st ⟨slot, r, .raiseExc⟩ tc).writes ++ _ = _
    rw [storeResult_writes]
  · intro hothers
    rw [hstep]
    have hdict : (applyCallFunc true ⟨slot, r, .raiseExc⟩ tc
        (storeResult st ⟨slot, r, .raiseExc⟩ tc)).devCmdDict =
        aset st.devCmdDict slot { tc with state := r } := by
      rw [hY]
      show (storeResult st ⟨slot, r, .raiseExc⟩ tc).devCmdDict = _
      exact storeResult_devCmdDict _ _ _
    have hall : allDoneP (applyCallFunc true ⟨slot, r, .raiseExc⟩ tc
        (storeResult st ⟨slot, r, .raiseExc⟩ tc)) := by
      intro s2 tc2 hal
      rw [hdict] at hal
      by_cases hne : s2 = slot
      · subst hne
        rw [alookup_aset_self] at hal
        injection hal with hal2
        rw [← hal2]
        exact hr
      · rw [alookup_aset_ne _ _ (fun h2 => hne h2.symm)] at hal
        exact hothers s2 tc2 hne hal
    have huY : (applyCallFunc true ⟨slot, r, .raiseExc⟩ tc
        (storeResult st ⟨slot, r, .raiseExc⟩ tc)).userCmd = st.userCmd := by
      rw [applyCallFunc_userCmd, storeResult_userCmd]
    by_cases hu : st.userCmd.state.isDone
    · rw [checkDone_userCmd_of_isDone (by rw [huY]; exact hu), huY]
      exact hu
    · exact (checkDone_resolves hall (by rw [huY]; simpa using hu)).1

/-- Concrete setup for the C4 witness: slot "b" already done; slot "a"
completes successfully but its callback raises. -/
def stC4 : RunState :=
  ⟨⟨.ready, ""⟩,
   [("a", ⟨.running, "move", false⟩), ("b", ⟨.done, "move", false⟩)],
   [], [], [("a", .single "move", 5), ("b", .single "move", 5)]⟩

theorem callFunc_exception_contained_witness :
    alookup stC4.devCmdDict "a" = some ⟨.running, "move", false⟩ ∧
    ("a" ∈ (step true stC4 ⟨"a", .done, .raiseExc⟩).failSlotSet ∧
     (step true stC4 ⟨"a", .done, .raiseExc⟩).writes =
       stC4.writes ++ [("f", "a command " ++ pyReprStr "move" ++ " failed")] ∧
     ((∀ s2 tc2, s2 ≠ "a" → alookup stC4.devCmdDict s2 = some tc2 →
         tc2.state.isDone = true) →
       (step true stC4 ⟨"a", .done, .raiseExc⟩).userCmd.state.isDone = true)) :=
  ⟨by decide,
   callFunc_exception_contained stC4 "a" .done ⟨.running, "move", false⟩
     (by decide) (by decide) (by decide)⟩

/-- C10: dispatching an empty command map resolves the Governing Command
to Done synchronously, inside the dispatch call itself (`checkDone` at the
end of `RunCmdDict.__init__` sees no tracked handles); the same holds for
`startCmd` with an explicit empty slot list. -/
theorem empty_dispatch_resolves_done (ds : DeviceSet) (hasCF : Bool)
    (timeLim : Nat) (cmd : CmdSpec) :
    runCmdDict ds [] hasCF none timeLim =
      .ok ⟨⟨.done, ""⟩, [], [], [], []⟩ ∧
    ds.startCmd cmd (some []) hasCF none timeLim =
      .ok ⟨⟨.done, ""⟩, [], [], [], []⟩ :=
  ⟨rfl, rfl⟩

/-- C5: a command map containing an unknown or empty slot makes
`RunCmdDict.__init__` (and hence `startCmdDict`) fail synchronously with
`checkSlotList`'s configuration error, before the user command is touched
and before any device command is issued: the run returns exactly that
error and produces no run state. -/
theorem bad_slot_fails_before_dispatch (ds : DeviceSet)
    (cmdDict : List (String × CmdSpec)) (hasCF : Bool)
    (u0 : Option UserCmdState) (timeLim : Nat)
    (hbad : ∃ s ∈ keysOf cmdDict,
      ds.lookupSlot s = none ∨ ds.lookupSlot s = some none) :
    ∃ msg, ds.checkSlotList (keysOf cmdDict) = .error msg ∧
      runCmdDict ds cmdDict hasCF u0 timeLim = .error msg := by
  obtain ⟨s, hs, hcase⟩ := hbad
  have herr : ∃ msg, ds.checkSlotList (keysOf cmdDict) = .error msg := by
    unfold DeviceSet.checkSlotList
    by_cases hall : (keysOf cmdDict).all (fun s2 => (ds.lookupSlot s2).isSome)
    · rcases hcase with hun | hemp
      · exfalso
        have := List.all_eq_true.mp hall s hs
        rw [hun] at this
        simp at this
      · simp only [hall, if_true]
        have hmem : s ∈ (keysOf cmdDict).filter (fun s2 => ds.devAt s2 = none) := by
          rw [List.mem_filter]
          refine ⟨hs, ?_⟩
          simp [DeviceSet.devAt, hemp]
        have hne : ((keysOf cmdDict).filter
            (fun s2 => ds.devAt s2 = none)).isEmpty = false := by
          cases hfe : (keysOf cmdDict).filter (fun s2 => ds.devAt s2 = none) with
          | nil =>
            rw [hfe] at hmem
            cases hmem
          | cons a l => rfl
        rw [hne]
        exact ⟨_, rfl⟩
    · have hall2 : (keysOf cmdDict).all
          (fun s2 => (ds.lookupSlot s2).isSome) = false := by
        simpa using hall
      rw [hall2]
      exact ⟨_, rfl⟩
  obtain ⟨msg, hmsg⟩ := herr
  refine ⟨msg, hmsg, ?_⟩
  unfold runCmdDict
  rw [hmsg]
  rfl

/-- Registry used by the C5 witness: slot "x" filled, slot "y" empty. -/
def dsXY : DeviceSet :=
  ⟨[("x", some ⟨"devx"⟩), ("y", none)], [("devx", "x")]⟩

theorem bad_slot_fails_before_dispatch_witness :
    (∃ s ∈ keysOf [("z", CmdSpec.single "go")],
      dsXY.lookupSlot s = none ∨ dsXY.lookupSlot s = some none) ∧
    ∃ msg, dsXY.checkSlotList (keysOf [("z", CmdSpec.single "go")]) = .error msg ∧
      runCmdDict dsXY [("z", CmdSpec.single "go")] false none 5 = .error msg :=
  ⟨by decide,
   bad_slot_fails_before_dispatch dsXY [("z", CmdSpec.single "go")] false none 5
     (by decide)⟩

instance {α β : Type} [DecidableEq α] [DecidableEq β] :
    DecidableEq (Except α β) := fun a b =>
  match a, b with
  | .ok x, .ok y =>
    if h : x = y then .isTrue (by rw [h]) else .isFalse (by simp [h])
  | .error x, .error y =>
    if h : x = y then .isTrue (by rw [h]) else .isFalse (by simp [h])
  | .ok _, .error _ => .isFalse (by simp)
  | .error _, .ok _ => .isFalse (by simp)

/-- Registry and initial run state for the C3 counterexample and witness:
both slots filled, both device commands fail, detection order "b" then "a". -/
def dsC3 : DeviceSet :=
  ⟨[("a", some ⟨"devA"⟩), ("b", some ⟨"devB"⟩)],
   [("devA", "a"), ("devB", "b")]⟩

def cmdC3 : List (String × CmdSpec) := [("a", .single "go"), ("b", .single "go")]

def st0C3 : RunState :=
  ⟨⟨.ready, ""⟩,
   [("a", ⟨.running, "go", false⟩), ("b", ⟨.running, "go", false⟩)],
   [], [], [("a", .single "go", 5), ("b", .single "go", 5)]⟩

def eventsC3 : List Ev := [⟨"b", .failed, .retNone⟩, ⟨"a", .failed, .retNone⟩]

/-- C3 counterexample: failures are detected in the order "b", "a", but the
resolved message joins the CPython `set` in hash-table order — "Command
failed for a, b" — which is not the failure-detection order "b, a". -/
theorem failMsg_not_detection_order :
    runCmdDict dsC3 cmdC3 false none 5 = .ok st0C3 ∧
    validTrace false st0C3 eventsC3 = true ∧
    (runEvents false st0C3 eventsC3).failSlotSet = ["b", "a"] ∧
    (runEvents false st0C3 eventsC3).userCmd =
      ⟨.failed, "Command failed for a, b"⟩ ∧
    "Command failed for a, b" ≠ "Command failed for b, a" := by
  refine ⟨by decide, by decide, by decide, by decide, by decide⟩

theorem runCmdDict_failure_aggregation_witness :
    validTrace false st0C3 eventsC3 = true ∧
    (((runEvents false st0C3 eventsC3).failSlotSet ≠ [] →
      (runEvents false st0C3 eventsC3).userCmd =
        ⟨.failed, "Command failed for " ++
          commaJoin (pySetOrder (runEvents false st0C3 eventsC3).failSlotSet)⟩) ∧
    ((runEvents false st0C3 eventsC3).failSlotSet = [] →
      (runEvents false st0C3 eventsC3).userCmd = ⟨.done, ""⟩) ∧
    (∀ e ∈ eventsC3, e.result.didFail = true →
      e.slot ∈ (runEvents false st0C3 eventsC3).failSlotSet) ∧
    (∀ s, s ∈ pySetOrder (runEvents false st0C3 eventsC3).failSlotSet ↔
      s ∈ (runEvents false st0C3 eventsC3).failSlotSet)) :=
  ⟨by decide,
   runCmdDict_failure_aggregation dsC3 cmdC3 false none 5 eventsC3 st0C3
     (by decide) (by decide) (by decide)⟩

/-- C8 (code bug): `DeviceSet.startCmd` documents `timeLim` as the
per-command time limit, but its delegation to `startCmdDict` omits the
`timeLim` argument, so the device command is started with
`DefaultTimeLim = 5` even when the caller asked for 10; `startCmdDict`
itself does forward the limit unchanged. -/
theorem startCmd_drops_timeLim :
    dsXY.startCmd (.single "move") (some ["x"]) false none 10 =
      .ok ⟨⟨.ready, ""⟩, [("x", ⟨.running, "move", false⟩)], [], [],
        [("x", .single "move", DefaultTimeLim)]⟩ ∧
    DefaultTimeLim = 5 ∧ (5 : Nat) ≠ 10 ∧
    dsXY.startCmdDict [("x", .single "move")] false none 10 =
      .ok ⟨⟨.ready, ""⟩, [("x", ⟨.running, "move", false⟩)], [], [],
        [("x", .single "move", 10)]⟩ :=
  ⟨by decide, rfl, by decide, by decide⟩

/-- C7 counterexample: slot "y" of `dsXY` is known but holds no device; an
explicit slot list naming it makes `connect` fail synchronously with the
"empty" configuration error instead of silently skipping the slot. -/
theorem connect_explicit_empty_slot_errors :
    alookup dsXY.slotDevDict "y" = some none ∧
    dsXY.connect (some ["x", "y"]) none 5 =
      .error "One or more slots is empty: y" :=
  ⟨by decide, by decide⟩

theorem checkSlotList_empty_error (ds : DeviceSet) (slots : List String)
    (hall : ∀ s ∈ slots, (ds.lookupSlot s).isSome)
    (hemp : ∃ s ∈ slots, ds.devAt s = none) :
    ds.checkSlotList slots =
      .error ("One or more slots is empty: " ++
        commaJoin (slots.filter (fun s => ds.devAt s = none))) := by
  unfold DeviceSet.checkSlotList
  have hallb : slots.all (fun s => (ds.lookupSlot s).isSome) = true :=
    List.all_eq_true.mpr (fun s hs => by simpa using hall s hs)
  rw [hallb]
  simp only [if_true]
  obtain ⟨s, hs, hds⟩ := hemp
  have hmem : s ∈ slots.filter (fun s2 => ds.devAt s2 = none) :=
    List.mem_filter.mpr ⟨hs, by simp [hds]⟩
  have hne : (slots.filter (fun s2 => ds.devAt s2 = none)).isEmpty = false := by
    cases hfe : slots.filter (fun s2 => ds.devAt s2 = none) with
    | nil =>
      rw [hfe] at hmem
      cases hmem
    | cons a l => rfl
  rw [hne]
  rfl

theorem filled_issue_eq {α : Type} (f : Device → α) :
    ∀ l : List (String × Option Device), (keysOf l).Nodup →
      (l.filterMap (fun p => if p.2.isSome then some p.1 else none)).filterMap
          (fun s => (alookup l s).join.map f) =
        l.filterMap (fun p => p.2.map f) := by
  intro l
  induction l with
  | nil => intro _; rfl
  | cons p rest ih =>
    intro hnd
    obtain ⟨k, od⟩ := p
    simp only [keysOf, List.map_cons, List.nodup_cons] at hnd
    have hsub : ∀ s, s ∈ rest.filterMap
        (fun p2 => if p2.2.isSome then some p2.1 else none) → s ∈ keysOf rest := by
      intro s hsm
      obtain ⟨p2, hp2, he⟩ := List.mem_filterMap.mp hsm
      by_cases h2 : p2.2.isSome
      · simp only [h2, if_true, Option.some_inj] at he
        exact he ▸ List.mem_map.mpr ⟨p2, hp2, rfl⟩
      · simp [h2] at he
    have hcongr : ∀ s ∈ rest.filterMap
        (fun p2 => if p2.2.isSome then some p2.1 else none),
        (alookup ((k, od) :: rest) s).join.map f = (alookup rest s).join.map f := by
      intro s hsm
      have hke : k ≠ s := by
        intro he
        exact hnd.1 (he ▸ hsub s hsm)
      simp only [alookup, hke, if_false]
    cases od with
    | none =>
      simp only [List.filterMap_cons, Option.isSome_none, Bool.false_eq_true,
        if_false, Option.map_none']
      rw [List.filterMap_congr hcongr]
      exact ih hnd.2
    | some d =>
      have hk : (alookup ((k, some d) :: rest) k).join.map f = some (f d) := by
        simp [alookup]
      simp only [List.filterMap_cons, Option.isSome_some, if_true,
        Option.map_some', hk]
      rw [List.filterMap_congr hcongr, ih hnd.2]

/-- C7 (amended): `connect`/`disconnect` silently skip empty slots only in
the default (`slotList is None`) form, where the targets are the filled
slots: exactly the present devices are issued a connect/disconnect.  An
explicit slot list is validated first, and a known-but-empty slot in it
makes the call fail synchronously with a configuration error (no device
operation issued). -/
theorem connectOrDisconnect_slot_handling (ds : DeviceSet) (doConnect : Bool)
    (timeLim : Nat) (u0 : Option UserCmdState) (u : UserCmdState)
    (hnd : (keysOf ds.slotDevDict).Nodup)
    (hexp : expandUserCmd u0 = .ok u) :
    (∃ res, ds.connectOrDisconnect doConnect none u0 timeLim = .ok res ∧
      res.issued = ds.slotDevDict.filterMap
        (fun p => p.2.map (fun d => (d.name, doConnect, timeLim)))) ∧
    (∀ slots : List String, (∀ s ∈ slots, (ds.lookupSlot s).isSome) →
      (∃ s ∈ slots, ds.devAt s = none) →
      ds.connectOrDisconnect doConnect (some slots) u0 timeLim =
        .error ("One or more slots is empty: " ++
          commaJoin (slots.filter (fun s => ds.devAt s = none)))) := by
  constructor
  · have heq : ds.connectOrDisconnect doConnect none u0 timeLim =
        .ok ⟨linkCommandsNow u ((ds.filledSlotList.filterMap
            (fun s => (ds.devAt s).map (fun d => (d.name, doConnect, timeLim)))).map
            (fun _ => CmdState.running)),
          ds.filledSlotList.filterMap
            (fun s => (ds.devAt s).map (fun d => (d.name, doConnect, timeLim)))⟩ := by
      unfold DeviceSet.connectOrDisconnect
      rw [hexp]
      rfl
    refine ⟨_, heq, ?_⟩
    show (DeviceSet.filledSlotList ds).filterMap
        (fun s => (ds.devAt s).map (fun d => (d.name, doConnect, timeLim))) = _
    unfold DeviceSet.filledSlotList DeviceSet.devAt DeviceSet.lookupSlot
    exact filled_issue_eq _ ds.slotDevDict hnd
  · intro slots hall hemp
    have herr := checkSlotList_empty_error ds slots hall hemp
    unfold DeviceSet.connectOrDisconnect DeviceSet.expandSlotList
    rw [hexp]
    simp only [Bind.bind, Except.bind, herr]

theorem connectOrDisconnect_slot_handling_witness :
    (keysOf dsXY.slotDevDict).Nodup ∧
    ((∃ res, dsXY.connectOrDisconnect true none none 5 = .ok res ∧
        res.issued = dsXY.slotDevDict.filterMap
          (fun p => p.2.map (fun d => (d.name, true, 5)))) ∧
     (∀ slots : List String, (∀ s ∈ slots, (dsXY.lookupSlot s).isSome) →
       (∃ s ∈ slots, dsXY.devAt s = none) →
       dsXY.connectOrDisconnect true (some slots) none 5 =
         .error ("One or more slots is empty: " ++
           commaJoin (slots.filter (fun s => dsXY.devAt s = none))))) :=
  ⟨by decide,
   connectOrDisconnect_slot_handling dsXY true 5 none ⟨.ready, ""⟩
     (by decide) (by decide)⟩

/-- C6: `replaceDev` with a new device whose connect fails still installs
the device: `initCallback` reports the failure with a "w" write and then
unconditionally updates `_slotDevDict` and `_devNameSlotDict`, so the slot
lookup returns the new device, the reverse index maps its name to the
slot, and the returned user command is resolved to Done. -/
theorem replaceDev_failed_connect_installs (ds : DeviceSet) (slot : String)
    (d : Device) (connectMsg : String) (u0 : Option UserCmdState)
    (u : UserCmdState) (hslot : (alookup ds.slotDevDict slot).isSome)
    (hexp : expandUserCmd u0 = .ok u) :
    ds.replaceDev slot (some d) true connectMsg u0 =
      .ok ⟨⟨aset ds.slotDevDict slot (some d),
            aset ds.devNameSlotDict d.name slot⟩,
        ⟨.done, ""⟩,
        [("w", "Failed to initialize new " ++ slot ++ " device " ++ d.name ++
          ": " ++ connectMsg)]⟩ ∧
    alookup (aset ds.slotDevDict slot (some d)) slot = some (some d) ∧
    alookup (aset ds.devNameSlotDict d.name slot) d.name = some slot := by
  have hnone : (alookup ds.slotDevDict slot).isNone = false := by
    cases halo : alookup ds.slotDevDict slot
    · rw [halo] at hslot
      simp at hslot
    · rfl
  refine ⟨?_, alookup_aset_self _ _ _, alookup_aset_self _ _ _⟩
  unfold DeviceSet.replaceDev
  rw [hnone]
  simp only [Bool.false_eq_true, if_false, Bind.bind, Except.bind, hexp]
  rw [expandUserCmd_not_done hexp]
  simp

theorem replaceDev_failed_connect_installs_witness :
    (alookup dsXY.slotDevDict "x").isSome ∧
    (dsXY.replaceDev "x" (some ⟨"newdev"⟩) true "connection timed out" none =
      .ok ⟨⟨aset dsXY.slotDevDict "x" (some ⟨"newdev"⟩),
            aset dsXY.devNameSlotDict "newdev" "x"⟩,
        ⟨.done, ""⟩,
        [("w", "Failed to initialize new " ++ "x" ++ " device " ++ "newdev" ++
          ": " ++ "connection timed out")]⟩ ∧
     alookup (aset dsXY.slotDevDict "x" (some ⟨"newdev"⟩)) "x" =
       some (some ⟨"newdev"⟩) ∧
     alookup (aset dsXY.devNameSlotDict "newdev" "x") "newdev" = some "x") :=
  ⟨by decide,
   replaceDev_failed_connect_installs dsXY "x" ⟨"newdev"⟩ "connection timed out"
     none ⟨.ready, ""⟩ (by decide) (by decide)⟩

/-! ## C9: the device-name reverse index -/

/-- The names of the devices present in a slot→device list, in order. -/
def presentNames (l : List (String × Option Device)) : List String :=
  (l.filterMap (fun p => p.2)).map Device.name

/-- Every currently-present device's name maps to its slot in the reverse
index (the direction the code actually maintains). -/
def revIndexOK (ds : DeviceSet) : Prop :=
  ∀ slot d, (slot, some d) ∈ ds.slotDevDict →
    alookup ds.devNameSlotDict d.name = some slot

theorem mem_aset_elim {α : Type} {l : List (String × α)} {k : String} {v : α}
    {p : String × α} (h : p ∈ aset l k v) : p ∈ l ∨ p = (k, v) := by
  induction l with
  | nil => simpa [aset] using h
  | cons q rest ih =>
    obtain ⟨qk, qv⟩ := q
    by_cases hq : qk = k
    · subst hq
      simp only [aset, if_true] at h
      rcases List.mem_cons.mp h with h2 | h2
      · exact Or.inr h2
      · exact Or.inl (List.mem_cons_of_mem _ h2)
    · simp only [aset, hq, if_false] at h
      rcases List.mem_cons.mp h with h2 | h2
      · exact Or.inl (h2 ▸ List.mem_cons_self _ _)
      · rcases ih h2 with h3 | h3
        · exact Or.inl (List.mem_cons_of_mem _ h3)
        · exact Or.inr h3

theorem aset_fresh {α : Type} {l : List (String × α)} {k : String} (v : α)
    (h : k ∉ keysOf l) : aset l k v = l ++ [(k, v)] := by
  induction l with
  | nil => rfl
  | cons q rest ih =>
    obtain ⟨qk, qv⟩ := q
    simp only [keysOf, List.map_cons, List.mem_cons] at h
    push_neg at h
    have hq : ¬ qk = k := fun h2 => h.1 h2.symm
    simp only [aset, hq, if_false, List.cons_append]
    rw [ih (by simpa [keysOf] using h.2)]

theorem foldl_aset_of_nodup {α : Type} (l : List (String × α)) :
    ∀ acc : List (String × α), (keysOf l).Nodup →
      (∀ k ∈ keysOf l, k ∉ keysOf acc) →
      l.foldl (fun m p => aset m p.1 p.2) acc = acc ++ l := by
  induction l with
  | nil => intro acc _ _; simp
  | cons p rest ih =>
    intro acc hnd hfresh
    simp only [keysOf, List.map_cons, List.nodup_cons] at hnd
    simp only [List.foldl_cons]
    rw [aset_fresh p.2 (hfresh p.1 (List.mem_cons_self _ _))]
    rw [ih (acc ++ [p]) hnd.2 ?_]
    · simp
    · intro k hk
      simp only [keysOf, List.map_append, List.mem_append, List.map_cons]
      push_neg
      refine ⟨hfresh k (List.mem_cons_of_mem _ hk), ?_⟩
      simp only [List.map_nil, List.mem_singleton]
      intro he
      exact hnd.1 (he ▸ hk)

theorem revFold_preserve (l : List (String × Option Device)) (nm : String) :
    (∀ p ∈ l, ∀ dv : Device, p.2 = some dv → dv.name ≠ nm) →
    ∀ acc, alookup (l.foldl revStep acc) nm = alookup acc nm := by
  induction l with
  | nil => intro _ acc; rfl
  | cons p rest ih =>
    intro hnm acc
    simp only [List.foldl_cons]
    rw [ih (fun q hq => hnm q (List.mem_cons_of_mem _ hq))]
    unfold revStep
    cases hp : p.2 with
    | none => rfl
    | some dv =>
      exact alookup_aset_ne _ _ (hnm p (List.mem_cons_self _ _) dv hp)

theorem revFold_lookup (l : List (String × Option Device)) :
    (presentNames l).Nodup → ∀ (s : String) (d : Device), (s, some d) ∈ l →
      ∀ acc, alookup (l.foldl revStep acc) d.name = some s := by
  induction l with
  | nil =>
    intro _ s d h
    cases h
  | cons p rest ih =>
    intro hnd s d hmem acc
    simp only [List.foldl_cons]
    rcases List.mem_cons.mp hmem with h2 | h2
    · have hp2 : p.2 = some d := by rw [← h2]
      have hp1 : p.1 = s := by rw [← h2]
      have hnames : presentNames (p :: rest) = d.name :: presentNames rest := by
        unfold presentNames
        rw [List.filterMap_cons, hp2]
        rfl
      rw [hnames, List.nodup_cons] at hnd
      have hnotin : ∀ q ∈ rest, ∀ dv : Device, q.2 = some dv →
          dv.name ≠ d.name := by
        intro q hq dv hdv he
        apply hnd.1
        unfold presentNames
        exact List.mem_map.mpr ⟨dv, List.mem_filterMap.mpr ⟨q, hq, hdv⟩, he⟩
      rw [revFold_preserve rest d.name hnotin]
      unfold revStep
      rw [hp2, hp1]
      exact alookup_aset_self _ _ _
    · have hnd2 : (presentNames rest).Nodup := by
        unfold presentNames at hnd ⊢
        cases hp : p.2 with
        | none =>
          rw [List.filterMap_cons, hp] at hnd
          exact hnd
        | some dv =>
          rw [List.filterMap_cons, hp, List.map_cons, List.nodup_cons] at hnd
          exact hnd.2
      exact ih hnd2 s d h2 _

/-- C9 (amended): the reverse index always maps every currently-present
device's name to its slot — established at construction (given unique slot
names and unique present-device names) and preserved by `replaceDev`
removal and installation (given the installed name does not collide with a
device present in another slot).  The index is *not* pruned: a departed
device's stale entry may remain (see the counterexample), so it does not
hold exactly one entry per present device. -/
theorem revIndex_maps_present :
    (∀ (slotList : List String) (devList : List (Option Device)) (ds0 : DeviceSet),
      DeviceSet.construct slotList devList = .ok ds0 → slotList.Nodup →
      (presentNames (slotList.zip devList)).Nodup → revIndexOK ds0) ∧
    (∀ (ds : DeviceSet) (slot : String) (newDev : Option Device)
       (cf : Bool) (msg : String) (u0 : Option UserCmdState) (res : ReplaceResult),
      revIndexOK ds →
      (∀ d : Device, newDev = some d → ∀ s2 d2, s2 ≠ slot →
        (s2, some d2) ∈ ds.slotDevDict → d2.name ≠ d.name) →
      ds.replaceDev slot newDev cf msg u0 = .ok res → revIndexOK res.devSet) := by
  constructor
  · intro slotList devList ds0 hcon hslots hnames
    unfold DeviceSet.construct at hcon
    by_cases hlen : slotList.length ≠ devList.length
    · rw [if_pos hlen] at hcon
      cases hcon
    · rw [if_neg hlen] at hcon
      push_neg at hlen
      have hkeys : keysOf (slotList.zip devList) = slotList := by
        unfold keysOf
        exact List.map_fst_zip slotList devList (le_of_eq hlen)
      have hfold : (slotList.zip devList).foldl (fun m p => aset m p.1 p.2) [] =
          slotList.zip devList := by
        simpa using foldl_aset_of_nodup (slotList.zip devList) []
          (by rw [hkeys]; exact hslots) (by simp [keysOf])
      simp only [hfold] at hcon
      have hziplen : ¬ ((slotList.zip devList).length < slotList.length) := by
        rw [List.length_zip, hlen]
        simp
      rw [if_neg hziplen] at hcon
      injection hcon with hcon
      intro slot d hmem
      rw [← hcon] at hmem ⊢
      exact revFold_lookup _ hnames slot d hmem []
  · intro ds slot newDev cf msg u0 res hOK hfresh hrep
    unfold DeviceSet.replaceDev at hrep
    by_cases hslot : (alookup ds.slotDevDict slot).isNone
    · rw [if_pos hslot] at hrep
      cases hrep
    · rw [if_neg hslot] at hrep
      cases hexp : expandUserCmd u0 with
      | error e =>
        simp only [Bind.bind, Except.bind, hexp] at hrep
        exact Except.noConfusion hrep
      | ok u =>
        simp only [Bind.bind, Except.bind, hexp] at hrep
        cases newDev with
        | none =>
          injection hrep with hrep
          intro s d hmem
          rw [← hrep] at hmem ⊢
          rcases mem_aset_elim hmem with h2 | h2
          · exact hOK s d h2
          · injection h2 with h3 h4
            cases h4
        | some dnew =>
          injection hrep with hrep
          intro s d hmem
          rw [← hrep] at hmem ⊢
          show alookup (aset ds.devNameSlotDict dnew.name slot) d.name = some s
          rcases mem_aset_elim hmem with h2 | h2
          · by_cases hn : d.name = dnew.name
            · by_cases hse : s = slot
              · rw [hn, hse]
                exact alookup_aset_self _ _ _
              · exact absurd hn (hfresh dnew rfl s d hse h2)
            · rw [alookup_aset_ne _ _ (fun h3 => hn h3.symm)]
              exact hOK s d h2
          · injection h2 with h3 h4
            injection h4 with h4
            rw [h3, h4]
            exact alookup_aset_self _ _ _

/-- C9 counterexample: removing the device named "A" from slot "x"
(`replaceDev(slot, None)`) clears the slot but leaves the stale entry
("A", "x") in `_devNameSlotDict`: the departed device's name still appears
in the reverse index, which therefore does not contain exactly one entry
per currently-present device. -/
theorem revIndex_stale_after_removal :
    DeviceSet.construct ["x"] [some ⟨"A"⟩] =
      .ok ⟨[("x", some ⟨"A"⟩)], [("A", "x")]⟩ ∧
    DeviceSet.replaceDev ⟨[("x", some ⟨"A"⟩)], [("A", "x")]⟩ "x" none false "" none =
      .ok ⟨⟨[("x", none)], [("A", "x")]⟩, ⟨.done, ""⟩, []⟩ ∧
    alookup ([("x", (none : Option Device))]) "x" = some none ∧
    alookup ([("A", "x")] : List (String × String)) "A" = some "x" :=
  ⟨by decide, by decide, by decide, by decide⟩

theorem revIndex_maps_present_witness :
    DeviceSet.construct ["x"] [some ⟨"A"⟩] =
      .ok ⟨[("x", some ⟨"A"⟩)], [("A", "x")]⟩ ∧
    revIndexOK ⟨[("x", some ⟨"A"⟩)], [("A", "x")]⟩ ∧
    revIndexOK (⟨[("x", some ⟨"B"⟩)], [("A", "x"), ("B", "x")]⟩ : DeviceSet) := by
  have h1 := revIndex_maps_present.1 ["x"] [some ⟨"A"⟩]
    ⟨[("x", some ⟨"A"⟩)], [("A", "x")]⟩ (by decide) (by decide) (by decide)
  have h2 := revIndex_maps_present.2 ⟨[("x", some ⟨"A"⟩)], [("A", "x")]⟩ "x"
    (some ⟨"B"⟩) false "m" none
    ⟨⟨[("x", some ⟨"B"⟩)], [("A", "x"), ("B", "x")]⟩, ⟨.done, ""⟩, []⟩ h1
    (fun d hd s2 d2 hne hmem =>
      absurd (congrArg Prod.fst (List.mem_singleton.mp hmem)) hne)
    (by decide)
  exact ⟨by decide, h1, h2⟩
